import Mathlib

/-!
Shallow embedding of the manifest and synchronization engine of gogrepo.py:
the catalog data model, the filename deduplicator, the retry-aware request
helper, the manifest update pipeline, the download work-list construction and
worker transfer loop, the manifest save path, and the verify pass.  Theorems
at the end of the file check the specification claims against these
definitions.
-/

namespace Gogrepo

/-- One downloadable file entry.  Mirrors the AttrDict built in
filter_downloads and filter_extras: desc, os_type, lang, version, href,
md5, name, size, prev_verified. -/
structure GameEntry where
  desc : String
  os_type : String
  lang : String
  version : Option String
  href : String
  md5 : Option String
  name : Option String
  size : Option Nat
  prev_verified : Bool
deriving Repr, DecidableEq

/-- The (md5, size) pair recorded by the deduplicator for a resolved name. -/
abbrev MdPair := Option String × Option Nat

/-- The (checksum, size) pair of one entry, as read by deDuplicateName. -/
def entryPair (e : GameEntry) : MdPair := (e.md5, e.size)

/-- The clash dictionary of deDuplicateName: a finite map from a resolved
name to the list of (md5, size) pairs already recorded under it.  The Python
dict is modelled as an association list; lookup returns the first binding. -/
abbrev ClashDict := List (String × List MdPair)

/-- Python dict lookup (first binding wins). -/
def lookupName : ClashDict → String → Option (List MdPair)
  | [], _ => none
  | (k, v) :: rest, n => if k = n then some v else lookupName rest n

/-- `clashDict[name].append(pair)`: append a pair to the list bound to the
first occurrence of the key; unchanged when the key is absent. -/
def addPair : ClashDict → String → MdPair → ClashDict
  | [], _, _ => []
  | (k, v) :: rest, n, p =>
    if k = n then (k, v ++ [p]) :: rest else (k, v) :: addPair rest n p

/-- Split a character list at the LAST occurrence of `c`: returns
`some (pre, post)` with `l = pre ++ c :: post` and `c` not in `post`. -/
def lastSplit (c : Char) : List Char → Option (List Char × List Char)
  | [] => none
  | a :: rest =>
    match lastSplit c rest with
    | some (pre, post) => some (a :: pre, post)
    | none => if a = c then some ([], rest) else none

/-- os.path.splitext for a bare file name (no directory separators): split
at the last dot, except that a name whose characters before that dot are all
dots (such as ".bashrc") is not split.  Returns (root, ext) with
root ++ ext = name. -/
def splitext (s : String) : String × String :=
  match lastSplit '.' s.data with
  | none => (s, "")
  | some (pre, post) =>
    if pre.all (fun a => a = '.') then (s, "")
    else (⟨pre⟩, ⟨'.' :: post⟩)

/-- Characters stripped by Python int() around a numeric literal (ASCII
whitespace model). -/
def pyIsSpace (c : Char) : Bool :=
  c = ' ' || c = '\t' || c = '\n' || c = '\r' || c = '\x0b' || c = '\x0c'

/-- After the first digit: digits, with single underscores allowed between
digits (Python numeric-literal grouping). -/
def pyIntDigitsTail : List Char → Bool
  | [] => true
  | ['_'] => false
  | '_' :: c :: rest => c.isDigit && pyIntDigitsTail rest
  | c :: rest => c.isDigit && pyIntDigitsTail rest

/-- A nonempty digit string with underscore grouping. -/
def pyIntCore : List Char → Bool
  | [] => false
  | c :: rest => c.isDigit && pyIntDigitsTail rest

/-- Drop one optional leading sign. -/
def stripSign : List Char → List Char
  | '+' :: rest => rest
  | '-' :: rest => rest
  | l => l

/-- Strip whitespace from both ends. -/
def pyTrim (l : List Char) : List Char :=
  ((l.dropWhile pyIsSpace).reverse.dropWhile pyIsSpace).reverse

/-- Whether Python `int(s)` succeeds (ASCII-digit model): optional
whitespace, optional sign, then a nonempty underscore-grouped digit string. -/
def pyIntOk (l : List Char) : Bool :=
  pyIntCore (stripSign (pyTrim l))

/-- Magnitude of the digit string (underscores skipped). -/
def pyDigitsVal (l : List Char) : Nat :=
  (l.filter (fun c => c ≠ '_')).foldl (fun acc c => acc * 10 + (c.toNat - 48)) 0

/-- Value of Python `int(s)` on success. -/
def pyIntVal (l : List Char) : Int :=
  let t := pyTrim l
  match t with
  | '-' :: rest => - (pyDigitsVal rest : Int)
  | '+' :: rest => (pyDigitsVal rest : Int)
  | _ => (pyDigitsVal t : Int)

/-- Python `int(s)` as a partial function. -/
def pyIntParse (s : String) : Option Int :=
  if pyIntOk s.data then some (pyIntVal s.data) else none

/-- The rename step of deDuplicateName for a clashing name, given the count
of pairs already recorded under it.  Non-.bin names get the ordinal before
the extension; a .bin name whose root has a hyphen-delimited numeric tail
gets the ordinal before that tail (the hyphen is kept with the tail, as in
root[:setDelimiter] + "(n)" + root[setDelimiter:] + ext). -/
def deDupeRename (name : String) (count : Nat) : String :=
  if (splitext name).2 ≠ ".bin" then
    (splitext name).1 ++ "(" ++ toString count ++ ")" ++ (splitext name).2
  else
    match lastSplit '-' (splitext name).1.data with
    | none => (splitext name).1 ++ "(" ++ toString count ++ ")" ++ (splitext name).2
    | some (pre, post) =>
      if pyIntOk post then
        String.mk pre ++ "(" ++ toString count ++ ")" ++ String.mk ('-' :: post)
          ++ (splitext name).2
      else (splitext name).1 ++ "(" ++ toString count ++ ")" ++ (splitext name).2

/-- Length of the longest key of the clash dictionary. -/
def maxKeyLen (d : ClashDict) : Nat :=
  d.foldr (fun kv m => max kv.1.length m) 0

/-- The recursion of deDuplicateName, driven by explicit fuel.  Each rename
makes the candidate name strictly longer while the key set (hence
`maxKeyLen`) is unchanged, so as long as `fuel ≥ maxKeyLen d + 1 - n.length`
the fuel never runs out before the lookup misses; the fuel-zero fallback
coincides with the lookup-miss branch in that regime. -/
def dedupNameFuel : Nat → String → MdPair → ClashDict → Option String × ClashDict
  | 0, n, p, d => (some n, d ++ [(n, [p])])
  | fuel + 1, n, p, d =>
    match lookupName d n with
    | none => (some n, d ++ [(n, [p])])
    | some lst =>
      if p ∈ lst then (none, d)
      else dedupNameFuel fuel (deDupeRename n lst.length) p (addPair d n p)

/-- deDuplicateName: returns `none` when the (md5, size) pair is already
recorded under the name (a true duplicate, to be dropped), otherwise the
final unique name, together with the updated clash dictionary. -/
def deDuplicateName (n : String) (p : MdPair) (d : ClashDict) :
    Option String × ClashDict :=
  dedupNameFuel (maxKeyLen d + 1 - n.length) n p d

/-- deDuplicateList: entries with no resolved name pass through; a true
duplicate is dropped; a clashing entry is kept under its deduplicated name. -/
def deDuplicateList : List GameEntry → ClashDict → List GameEntry × ClashDict
  | [], d => ([], d)
  | e :: rest, d =>
    match e.name with
    | none => (e :: (deDuplicateList rest d).1, (deDuplicateList rest d).2)
    | some n =>
      match deDuplicateName n (entryPair e) d with
      | (none, d1) => deDuplicateList rest d1
      | (some m, d1) =>
        ({ e with name := some m } :: (deDuplicateList rest d1).1,
         (deDuplicateList rest d1).2)

/-! ## The retry-aware request helper -/

/-- HTTP request settings from the source. -/
def HTTP_FETCH_DELAY : Nat := 1

def HTTP_RETRY_DELAY : Nat := 5

def HTTP_RETRY_COUNT : Nat := 3

def HTTP_GAME_DOWNLOADER_THREADS : Nat := 4

def HTTP_PERM_ERRORCODES : List Nat := [404, 403, 503]

/-- Outcome of one attempt to open a URL: success, an HTTPError with a
status code, or one of the non-HTTP failures caught together with it
(URLError, socket.error, BadStatusLine). -/
inductive Outcome where
  | success
  | httpError (code : Nat)
  | netError
deriving Repr, DecidableEq

/-- Result of the request helper: a page obtained at some attempt index, or
an exception propagated at some attempt index. -/
inductive ReqResult where
  | ok (attempt : Nat)
  | raised (o : Outcome) (attempt : Nat)
deriving Repr, DecidableEq

/-- The codes the source never retries. -/
def isPermanent : Outcome → Bool
  | .httpError c => HTTP_PERM_ERRORCODES.contains c
  | _ => false

/-- A failure that the source treats as transient (retried while budget
remains). -/
def isTransient : Outcome → Bool
  | .success => false
  | o => !isPermanent o

/-- The request helper.  `outcomes k` is what the network does on attempt
`k`; `attempt` is the index of the current attempt.  Returns the result
together with the list of sleep durations performed (the function sleeps
`delay` on entry, and every retry passes HTTP_RETRY_DELAY). -/
def requestModel (outcomes : Nat → Outcome) (attempt : Nat) :
    Nat → Nat → ReqResult × List Nat
  | retries, delay =>
    if outcomes attempt = .success then (.ok attempt, [delay])
    else if isPermanent (outcomes attempt) then (.raised (outcomes attempt) attempt, [delay])
    else
      match retries with
      | 0 => (.raised (outcomes attempt) attempt, [delay])
      | r + 1 =>
        ((requestModel outcomes (attempt + 1) r HTTP_RETRY_DELAY).1,
         delay :: (requestModel outcomes (attempt + 1) r HTTP_RETRY_DELAY).2)

/-! ## Download work-list construction and the worker transfer loop -/

/-- The on-disk file tree seen by cmd_download, as path to byte content. -/
abbrev ByteFS := List (String × List Nat)

def bfsLookup : ByteFS → String → Option (List Nat)
  | [], _ => none
  | (k, v) :: rest, p => if k = p then some v else bfsLookup rest p

def bfsInsert (fs : ByteFS) (p : String) (v : List Nat) : ByteFS :=
  match fs with
  | [] => [(p, v)]
  | (k, w) :: rest => if k = p then (k, v) :: rest else (k, w) :: bfsInsert rest p v

/-- os.path.join for the paths this model builds. -/
def joinPath (a b : String) : String := a ++ "/" ++ b

/-- One tuple of the download work queue:
(game_item.href, game_item.size, 0, game_item.size - 1, dest_file). -/
structure WorkTuple where
  href : String
  size : Nat
  start : Nat
  endByte : Nat
  path : String
deriving Repr, DecidableEq

/-- The work dictionary keyed by destination file (insertion order kept,
later assignments overwrite). -/
abbrev WorkDict := List (String × WorkTuple)

def wdInsert (wd : WorkDict) (p : String) (w : WorkTuple) : WorkDict :=
  match wd with
  | [] => [(p, w)]
  | (k, v) :: rest => if k = p then (k, w) :: rest else (k, v) :: wdInsert rest p w

/-- The per-entry step of the queue-population loop of cmd_download.  An
entry with no name is skipped; when the destination file exists, an entry
with unknown size is skipped and one whose size matches the file is passed
over; otherwise the entry is enqueued with byte range (0, size - 1).
Returns `none` on the path where the source would raise a TypeError
(unknown size and no local file, so that `game_item.size - 1` is
`None - 1`). -/
def enqueueEntry (fs : ByteFS) (itemHomedir : String) (wd : WorkDict)
    (gi : GameEntry) : Option WorkDict :=
  match gi.name with
  | none => some wd
  | some nm =>
    let dest := joinPath itemHomedir nm
    match bfsLookup fs dest with
    | some content =>
      match gi.size with
      | none => some wd
      | some sz =>
        if sz ≠ content.length then
          some (wdInsert wd dest ⟨gi.href, sz, 0, sz - 1, dest⟩)
        else some wd
    | none =>
      match gi.size with
      | none => none
      | some sz => some (wdInsert wd dest ⟨gi.href, sz, 0, sz - 1, dest⟩)

/-- Populate the work dictionary from the entries of one catalog item. -/
def buildWorkDict (fs : ByteFS) (itemHomedir : String) :
    List GameEntry → WorkDict → Option WorkDict
  | [], wd => some wd
  | gi :: rest, wd =>
    (enqueueEntry fs itemHomedir wd gi).bind (buildWorkDict fs itemHomedir rest)

/-- Write `bytes` into `content` at offset `off` (zero-padding up to the
offset, as a sparse seek-then-write would). -/
def writeAt (content : List Nat) (off : Nat) (bytes : List Nat) : List Nat :=
  let base := content ++ List.replicate (off - content.length) 0
  base.take off ++ bytes ++ base.drop (off + bytes.length)

/-- The body bytes an honest server returns for range (start, endByte) of
`remote`. -/
def rangeBody (remote : List Nat) (start endByte : Nat) : List Nat :=
  (remote.take (endByte + 1)).drop start

/-- One worker processing one work tuple against an honest remote file
`remote`: create the destination if missing, truncate it when longer than
the expected size, seek to `w.start`, and, when the Content-Range header
"start-endByte/total" confirms the requested range against the expected
size (total = remote.length must equal w.size), stream the body into the
file at that offset.  On a mismatched Content-Range the item is skipped
(the truncation and creation side effects remain). -/
def workerRun (remote : List Nat) (w : WorkTuple) (fs : ByteFS) : ByteFS :=
  let cur := (bfsLookup fs w.path).getD []
  let cur1 := if cur.length > w.size then cur.take w.size else cur
  if remote.length = w.size then
    bfsInsert fs w.path (writeAt cur1 w.start (rangeBody remote w.start w.endByte))
  else bfsInsert fs w.path cur1

/-! ## Manifest persistence -/

def MANIFEST_FILENAME : String := "gog-manifest.dat"

def ORPHAN_DIR_NAME : String := "!orphaned"

/-- One write-level step performed against a file. -/
inductive WriteStep where
  | openTruncate (path : String)
  | writeAll (path : String) (content : String)
deriving Repr, DecidableEq

/-- Effect of one step on the content of the file it touches.  Opening with
mode w truncates at once; the subsequent write produces the full text. -/
def applyWrite : Option String → WriteStep → Option String
  | _, .openTruncate _ => some ""
  | _, .writeAll _ c => some c

def runSteps (file : Option String) (steps : List WriteStep) : Option String :=
  steps.foldl applyWrite file

/-! ## The catalog data model and the update pipeline -/

/-- Two-letter language code to the gogapi json language name. -/
def LANG_TABLE : List (String × String) :=
  [("en", "English"),
   ("bl", "български"),
   ("ru", "русский"),
   ("gk", "Ελληνικά"),
   ("sb", "Српска"),
   ("ar", "العربية"),
   ("br", "Português do Brasil"),
   ("jp", "日本語"),
   ("ko", "한국어"),
   ("fr", "français"),
   ("cn", "中文"),
   ("cz", "český"),
   ("hu", "magyar"),
   ("pt", "português"),
   ("tr", "Türkçe"),
   ("sk", "slovenský"),
   ("nl", "nederlands"),
   ("ro", "română"),
   ("es", "español"),
   ("pl", "polski"),
   ("it", "italiano"),
   ("de", "Deutsch"),
   ("da", "Dansk"),
   ("sv", "svenska"),
   ("fi", "Suomi"),
   ("no", "norsk")]

def langLookup : List (String × String) → String → Option String
  | [], _ => none
  | (k, v) :: rest, c => if k = c then some v else langLookup rest c

/-- valid_langs: the gogapi names of the requested language codes (the CLI
validates the codes, so the lookup cannot miss on real inputs). -/
def validLangs (langList : List String) : List String :=
  langList.filterMap (langLookup LANG_TABLE)

/-- One product record of the getFilteredProducts shelf data, as far as the
update pipeline reads it (id, slug, title, category, rating, updates,
isHidden; presentation-only url and image fields are elided). -/
structure Product where
  id : Nat
  title : String
  longTitle : String
  genre : String
  rating : Nat
  hasUpdates : Bool
  isHidden : Bool
deriving Repr, DecidableEq

/-- The gameDetails payload for one product after the scraping collaborator
has filtered downloads and extras by language and os and flattened dlcs
(filter_downloads, filter_extras, filter_dlcs are network glue): the raw
entry lists handed to the pure dedup and split pipeline, plus the textual
detail fields the manifest keeps. -/
structure GameDetails where
  serial : String
  changelog : String
  downloads : List GameEntry
  galaxyDownloads : List GameEntry
  extras : List GameEntry
deriving Repr, DecidableEq

/-- One catalog item of the manifest. -/
structure Game where
  id : Nat
  title : String
  longTitle : String
  genre : String
  rating : Nat
  hasUpdates : Bool
  serial : String
  changelog : String
  downloads : List GameEntry
  galaxyDownloads : List GameEntry
  sharedDownloads : List GameEntry
  extras : List GameEntry
deriving Repr, DecidableEq

/-- item_checkdb: index of the first item of the list whose id equals the
search id (compared as Python ints). -/
def item_checkdb (searchId : Int) : List Game → Option Nat
  | [] => none
  | g :: rest =>
    if (g.id : Int) = searchId then some 0
    else (item_checkdb searchId rest).map (fun i => i + 1)

/-- Python list.remove: drop the first occurrence (total model; callers
guard membership as the source catches ValueError). -/
def removeFirst : List String → String → List String
  | [], _ => []
  | x :: rest, s => if x = s then rest else x :: removeFirst rest s

/-- ids.remove(item.title), falling back to ids.remove(str(item.id)). -/
def removeMatched (ids : List String) (p : Product) : List String :=
  if p.title ∈ ids then removeFirst ids p.title
  else if toString p.id ∈ ids then removeFirst ids (toString p.id)
  else ids

/-- The updateonly / skipknown / append-all criterion applied to a product
that passed the hidden, skipids and ids gates. -/
def productKeep (knownIds : List Nat) (skipknown updateonly : Bool) (p : Product) : Bool :=
  if updateonly then p.hasUpdates
  else if skipknown then !(knownIds.contains p.id)
  else true

/-- The shelf-scanning loop of cmd_update on the flattened page contents:
hidden products are dropped when requested, skipids products are skipped,
and with a nonempty ids filter only matching products are taken, each match
consuming its filter entry; when the filter empties, scanning stops (done).
Matched products still pass the updateonly or skipknown criterion.  Returns
the selected products and the leftover ids. -/
def scanProducts (knownIds : List Nat) (skipids : List String)
    (skipHidden skipknown updateonly : Bool) :
    List Product → List String → List Product × List String
  | [], ids => ([], ids)
  | p :: rest, ids =>
    if skipHidden && p.isHidden then
      scanProducts knownIds skipids skipHidden skipknown updateonly rest ids
    else if p.title ∈ skipids ∨ toString p.id ∈ skipids then
      scanProducts knownIds skipids skipHidden skipknown updateonly rest ids
    else if ids.isEmpty then
      (if productKeep knownIds skipknown updateonly p then
        p :: (scanProducts knownIds skipids skipHidden skipknown updateonly rest ids).1
       else (scanProducts knownIds skipids skipHidden skipknown updateonly rest ids).1,
       (scanProducts knownIds skipids skipHidden skipknown updateonly rest ids).2)
    else if p.title ∈ ids ∨ toString p.id ∈ ids then
      if (removeMatched ids p).isEmpty then
        (if productKeep knownIds skipknown updateonly p then [p] else [],
         removeMatched ids p)
      else
        (if productKeep knownIds skipknown updateonly p then
          p :: (scanProducts knownIds skipids skipHidden skipknown updateonly rest
            (removeMatched ids p)).1
         else (scanProducts knownIds skipids skipHidden skipknown updateonly rest
            (removeMatched ids p)).1,
         (scanProducts knownIds skipids skipHidden skipknown updateonly rest
            (removeMatched ids p)).2)
    else scanProducts knownIds skipids skipHidden skipknown updateonly rest ids

/-- del gamesdb[item_checkdb(searchId, gamesdb)] when present. -/
def deleteItem (db : List Game) (searchId : Int) : List Game :=
  match item_checkdb searchId db with
  | some i => db.eraseIdx i
  | none => db

/-- The unfiltered-fetch pruning block of cmd_update: every known id that
no scanned product confirmed, and that skipids does not protect (compared
as str(id) only), is removed from the manifest. -/
def pruneMissing (db : List Game) (scanned : List Product) (knownIds : List Nat)
    (skipids : List String) : List Game :=
  let validIDs := scanned.map (fun p => p.id)
  let invalidItems :=
    knownIds.filter (fun n => !(validIDs.contains n) && !(skipids.contains (toString n)))
  invalidItems.foldl (fun d n => deleteItem d (n : Int)) db

/-- The id-filtered pruning block of cmd_update: leftover filter entries
that name known manifest titles or known numeric ids are removed from the
manifest (first the numeric ids, then the ids of the items carrying the
named titles, both captured before any removal). -/
def pruneInvalid (db : List Game) (idsLeft : List String) (knownIds : List Int)
    (knownTitles : List String) : List Game :=
  let invalidTitles := idsLeft.filter (fun s => knownTitles.contains s)
  let invalidIDs := idsLeft.filterMap (fun s =>
    (pyIntParse s).bind (fun v => if knownIds.contains v then some v else none))
  let titlesToIDs := (db.filter (fun g => invalidTitles.contains g.title)).map
    (fun g => ((g.id : Int), g.title))
  let db1 := invalidIDs.foldl deleteItem db
  titlesToIDs.foldl (fun d pr => deleteItem d pr.1) db1

/-- The pure post-fetch pipeline of the detail loop: independent dedup of
downloads and galaxyDownloads, the shared split dependent on the installers
mode, then the joint dedup of all four lists threading one clash
dictionary. -/
def processDetails (installers : String) (p : Product) (d : GameDetails) : Game :=
  let downloads := (deDuplicateList d.downloads []).1
  let galaxy := (deDuplicateList d.galaxyDownloads []).1
  let shared := downloads.filter (fun x => galaxy.contains x)
  let downloads2 := if installers = "galaxy" then []
    else downloads.filter (fun x => !(shared.contains x))
  let galaxy2 := if installers = "standalone" then []
    else galaxy.filter (fun x => !(shared.contains x))
  let r1 := deDuplicateList downloads2 []
  let r2 := deDuplicateList galaxy2 r1.2
  let r3 := deDuplicateList shared r2.2
  let r4 := deDuplicateList d.extras r3.2
  { id := p.id, title := p.title, longTitle := p.longTitle, genre := p.genre,
    rating := p.rating, hasUpdates := p.hasUpdates, serial := d.serial,
    changelog := d.changelog, downloads := r1.1, galaxyDownloads := r2.1,
    sharedDownloads := r3.1, extras := r4.1 }

/-- One iteration of the detail-fetch loop: a failed fetch (the source logs
the exception) leaves the manifest untouched; a successful one replaces the
item with the same id, or appends.  handle_game_updates only logs. -/
def applyDetailsStep (installers : String) (details : Product → Option GameDetails)
    (db : List Game) (p : Product) : List Game :=
  match details p with
  | none => db
  | some d =>
    let item := processDetails installers p d
    match item_checkdb (p.id : Int) db with
    | some i => db.set i item
    | none => db ++ [item]

/-- Stable insertion of a product into a title-sorted list. -/
def insertProductByTitle (p : Product) : List Product → List Product
  | [] => [p]
  | h :: t => if p.title ≤ h.title then p :: h :: t else h :: insertProductByTitle p t

/-- sorted(items, key=lambda item: item.title), modelled as a stable
insertion sort (Python sorted is stable). -/
def sortProductsByTitle (l : List Product) : List Product :=
  l.foldr insertProductByTitle []

/-- cmd_update on a loaded manifest: scan the shelf pages, prune (the
unfiltered block only without an ids filter, the leftover-ids block only
with one), then run the detail loop over the selected products sorted by
title, and return the manifest that save_manifest persists.  The network
is the `details` collaborator; the early bail when nothing was selected
only skips an empty detail loop and does not change the result. -/
def cmdUpdate (gamesdb : List Game) (prods : List Product)
    (details : Product → Option GameDetails) (installers : String)
    (ids skipids : List String) (skipHidden skipknown updateonly : Bool) :
    List Game :=
  let knownIds := gamesdb.map (fun g => g.id)
  let knownTitles := gamesdb.map (fun g => g.title)
  let scanned := scanProducts knownIds skipids skipHidden skipknown updateonly prods ids
  let db1 :=
    if ids.isEmpty && !updateonly && !skipknown then
      pruneMissing gamesdb scanned.1 knownIds skipids
    else gamesdb
  let db2 :=
    if !ids.isEmpty && !updateonly && !skipknown then
      pruneInvalid db1 scanned.2 (gamesdb.map (fun g => (g.id : Int))) knownTitles
    else db1
  (sortProductsByTitle scanned.1).foldl (applyDetailsStep installers details) db2

/-- Whether the ids filter names the game carried by a manifest item: by
its manifest title, by the decimal form of its id, by any string the code
parses as its numeric id, or by the current (fetched) title of the product
with its id. -/
def filterNamesGame (prods : List Product) (ids : List String) (g : Game) : Bool :=
  ids.contains g.title || ids.contains (toString g.id) ||
  ids.any (fun s => pyIntParse s = some (g.id : Int)) ||
  prods.any (fun p => p.id = g.id && (ids.contains p.title || ids.contains (toString p.id)))

/-- The text save_manifest writes: a count header line followed by the
pretty-printed item list (the exact pretty-printer layout is irrelevant to
the claims; only the identity of the text matters, so the derived
representation stands in for pprint). -/
def manifestText (items : List Game) : String :=
  "# " ++ toString items.length ++ " games" ++ "\n" ++ reprStr items

/-- save_manifest: codecs.open(MANIFEST_FILENAME, w) truncates the manifest
in place, then the full text is written.  No temporary file and no
content comparison are involved. -/
def saveManifestSteps (items : List Game) : List WriteStep :=
  [.openTruncate MANIFEST_FILENAME, .writeAll MANIFEST_FILENAME (manifestText items)]

/-- ConditionalWriter: the buffered text is compared with the existing file
content and the file is rewritten (truncate then write, still in place)
only when they differ or the file is absent. -/
def conditionalWriterSteps (path : String) (content : String)
    (existing : Option String) : List WriteStep :=
  if existing = some content then []
  else [.openTruncate path, .writeAll path content]

/-! ## The verify pass -/

/-- What the verify checks read from one on-disk file: its md5, its size,
and whether it passes the zip integrity test. -/
structure FileInfo where
  md5 : String
  size : Nat
  zipOk : Bool
deriving Repr, DecidableEq

/-- The file tree seen by cmd_verify. -/
abbrev FS := List (String × FileInfo)

def fsLookup : FS → String → Option FileInfo
  | [], _ => none
  | (k, v) :: rest, p => if k = p then some v else fsLookup rest p

def fsErase : FS → String → FS
  | [], _ => []
  | (k, v) :: rest, p => if k = p then fsErase rest p else (k, v) :: fsErase rest p

def fsInsert (fs : FS) (p : String) (v : FileInfo) : FS :=
  match fs with
  | [] => [(p, v)]
  | (k, w) :: rest => if k = p then (k, v) :: rest else (k, w) :: fsInsert rest p v

/-- shutil.move of one file to a new path. -/
def fsMove (fs : FS) (src dst : String) : FS :=
  match fsLookup fs src with
  | some v => fsInsert (fsErase fs src) dst v
  | none => fs

/-- The flags of cmd_verify. -/
structure VerifyCfg where
  check_md5 : Bool
  check_filesize : Bool
  check_zips : Bool
  delete_on_fail : Bool
  clean_on_fail : Bool
  skipextras : Bool
  skipgalaxy : Bool
  skipstandalone : Bool
  skipshared : Bool
deriving Repr, DecidableEq

/-- The mutable state threaded through the verify pass: the file tree plus
the counters of the final report. -/
structure VState where
  fs : FS
  item_count : Nat
  missing_cnt : Nat
  bad_md5_cnt : Nat
  bad_size_cnt : Nat
  bad_zip_cnt : Nat
  del_file_cnt : Nat
  clean_file_cnt : Nat
deriving Repr, DecidableEq

def initVState (fs : FS) : VState := ⟨fs, 0, 0, 0, 0, 0, 0, 0⟩

/-- The missing-items line of the final report:
missing_cnt + del_file_cnt + clean_file_cnt. -/
def reportedMissing (st : VState) : Nat :=
  st.missing_cnt + st.del_file_cnt + st.clean_file_cnt

/-- Whether the md5 check fails for a present file. -/
def md5Fail (cfg : VerifyCfg) (itm : GameEntry) (fi : FileInfo) : Bool :=
  cfg.check_md5 && match itm.md5 with
    | some m => decide (m ≠ fi.md5)
    | none => false

/-- Whether the size check fails for a present file. -/
def sizeFail (cfg : VerifyCfg) (itm : GameEntry) (fi : FileInfo) : Bool :=
  cfg.check_filesize && match itm.size with
    | some s => decide (s ≠ fi.size)
    | none => false

/-- itm.name.lower().endswith(".zip"), at the character-list level (ASCII
lowering, as Python does for these names). -/
def lowerEndsWithZip (nm : String) : Bool :=
  List.isSuffixOf ".zip".data (nm.data.map Char.toLower)

/-- Whether the zip check fails for a present file. -/
def zipFail (cfg : VerifyCfg) (nm : String) (fi : FileInfo) : Bool :=
  cfg.check_zips && lowerEndsWithZip nm && !fi.zipOk

/-- The fail flag of the verify loop for a present file: any enabled check
that does not pass. -/
def verifyFail (cfg : VerifyCfg) (itm : GameEntry) (nm : String) (fi : FileInfo) : Bool :=
  md5Fail cfg itm fi || sizeFail cfg itm fi || zipFail cfg nm fi

/-- One iteration of the verify loop over one entry.  An unresolved name is
only logged; a missing file only counts as missing; a present file is
checked, optionally deleted or moved to the orphan directory on failure,
and its prev_verified flag is set to the outcome. -/
def verifyEntry (cfg : VerifyCfg) (gamedir title : String) (st : VState)
    (itm : GameEntry) : VState × GameEntry :=
  match itm.name with
  | none => (st, itm)
  | some nm =>
    let st := { st with item_count := st.item_count + 1 }
    let path := joinPath gamedir (joinPath title nm)
    match fsLookup st.fs path with
    | none => ({ st with missing_cnt := st.missing_cnt + 1 }, itm)
    | some fi =>
      let fail := verifyFail cfg itm nm fi
      let st := { st with
        bad_md5_cnt := st.bad_md5_cnt + (if md5Fail cfg itm fi then 1 else 0),
        bad_size_cnt := st.bad_size_cnt + (if sizeFail cfg itm fi then 1 else 0),
        bad_zip_cnt := st.bad_zip_cnt + (if zipFail cfg nm fi then 1 else 0) }
      let st :=
        if cfg.delete_on_fail && fail then
          { st with fs := fsErase st.fs path, del_file_cnt := st.del_file_cnt + 1 }
        else st
      let st :=
        if cfg.clean_on_fail && fail then
          { st with
            fs := fsMove st.fs path
              (joinPath gamedir (joinPath ORPHAN_DIR_NAME (joinPath title nm))),
            clean_file_cnt := st.clean_file_cnt + 1 }
        else st
      (st, { itm with prev_verified := !fail })

/-- Thread the verify state through one entry list, collecting the updated
entries. -/
def verifyEntries (cfg : VerifyCfg) (gamedir title : String) :
    VState → List GameEntry → VState × List GameEntry
  | st, [] => (st, [])
  | st, e :: rest =>
    let r1 := verifyEntry cfg gamedir title st e
    let r2 := verifyEntries cfg gamedir title r1.1 rest
    (r2.1, r1.2 :: r2.2)

/-- The per-game list filtering of cmd_verify: the skip flags empty their
lists, then the three download lists are filtered by os_type and language
(extras are not os or language filtered). -/
def applyVerifyFilters (cfg : VerifyCfg) (osList langNames : List String)
    (g : Game) : Game :=
  let downloads := if cfg.skipstandalone then [] else g.downloads
  let galaxy := if cfg.skipgalaxy then [] else g.galaxyDownloads
  let shared := if cfg.skipshared then [] else g.sharedDownloads
  let extras := if cfg.skipextras then [] else g.extras
  let downloads := downloads.filter (fun e => osList.contains e.os_type)
  let galaxy := galaxy.filter (fun e => osList.contains e.os_type)
  let shared := shared.filter (fun e => osList.contains e.os_type)
  let downloads := downloads.filter (fun e => langNames.contains e.lang)
  let galaxy := galaxy.filter (fun e => langNames.contains e.lang)
  let shared := shared.filter (fun e => langNames.contains e.lang)
  { g with downloads := downloads, galaxyDownloads := galaxy,
           sharedDownloads := shared, extras := extras }

/-- Verify one game: filter its lists, then walk
downloads ++ galaxyDownloads ++ sharedDownloads ++ extras in order. -/
def verifyGame (cfg : VerifyCfg) (gamedir : String) (osList langNames : List String)
    (st : VState) (g : Game) : VState × Game :=
  let g1 := applyVerifyFilters cfg osList langNames g
  let r1 := verifyEntries cfg gamedir g1.title st g1.downloads
  let r2 := verifyEntries cfg gamedir g1.title r1.1 g1.galaxyDownloads
  let r3 := verifyEntries cfg gamedir g1.title r2.1 g1.sharedDownloads
  let r4 := verifyEntries cfg gamedir g1.title r3.1 g1.extras
  (r4.1, { g1 with downloads := r1.2, galaxyDownloads := r2.2,
                   sharedDownloads := r3.2, extras := r4.2 })

/-- Stable insertion of a game into a title-sorted list. -/
def insertGameByTitle (g : Game) : List Game → List Game
  | [] => [g]
  | h :: t => if g.title ≤ h.title then g :: h :: t else h :: insertGameByTitle g t

/-- sorted(items, key=lambda g: g.title), modelled as a stable insertion
sort (Python sorted is stable). -/
def sortGamesByTitle (l : List Game) : List Game :=
  l.foldr insertGameByTitle []

/-- The games cmd_verify walks: the manifest sorted by title, restricted by
skipids or by ids. -/
def gamesToCheck (items : List Game) (ids skipids : List String) : List Game :=
  let base := sortGamesByTitle items
  if !skipids.isEmpty then
    base.filter (fun g => !(skipids.contains g.title || skipids.contains (toString g.id)))
  else if !ids.isEmpty then
    base.filter (fun g => ids.contains g.title || ids.contains (toString g.id))
  else base

/-- cmd_verify.  In the source every processed game aliases its slot in
`items`, so every mutation (list filtering, flag updates) is visible there;
the model makes the aliasing explicit by writing the processed game back
through item_checkdb on the game id after each game, which is exact for a
manifest whose ids are distinct (the data-model invariant).  cmd_verify
contains no save_manifest call, so nothing of the result reaches the
manifest file: the returned state only carries the game-file tree and the
report counters, and the returned list only the in-memory manifest. -/
def verifyStep (cfg : VerifyCfg) (gamedir : String) (osList langNames : List String)
    (acc : VState × List Game) (g : Game) : VState × List Game :=
  ((verifyGame cfg gamedir osList langNames acc.1 g).1,
   match item_checkdb (g.id : Int) acc.2 with
   | some i => acc.2.set i (verifyGame cfg gamedir osList langNames acc.1 g).2
   | none => acc.2)

def cmdVerify (cfg : VerifyCfg) (gamedir : String) (items : List Game)
    (ids skipids osList langList : List String) (fs : FS) : VState × List Game :=
  (gamesToCheck items ids skipids).foldl
    (verifyStep cfg gamedir osList (validLangs langList))
    (initVState fs, items)

/-! ## Lemmas about the deduplicator -/

theorem lastSplit_eq {c : Char} : ∀ {l pre post : List Char},
    lastSplit c l = some (pre, post) → l = pre ++ c :: post := by
  intro l
  induction l with
  | nil => intro pre post h; simp [lastSplit] at h
  | cons a rest ih =>
    intro pre post h
    simp only [lastSplit] at h
    cases hr : lastSplit c rest with
    | some pr =>
      obtain ⟨pre1, post1⟩ := pr
      rw [hr] at h
      injection h with h1
      injection h1 with h2 h3
      subst h2
      subst h3
      rw [List.cons_append, ih hr]
    | none =>
      rw [hr] at h
      by_cases hac : a = c
      · rw [if_pos hac] at h
        injection h with h1
        injection h1 with h2 h3
        subst h2
        subst h3
        rw [hac]
        rfl
      · rw [if_neg hac] at h
        cases h

theorem splitext_data (s : String) :
    (splitext s).1.data ++ (splitext s).2.data = s.data := by
  unfold splitext
  split
  · exact List.append_nil s.data
  · rename_i pre post hs
    by_cases hall : pre.all (fun a => a = '.')
    · rw [if_pos hall]
      exact List.append_nil s.data
    · rw [if_neg hall]
      exact (lastSplit_eq hs).symm

theorem splitext_length (s : String) :
    (splitext s).1.length + (splitext s).2.length = s.length := by
  have h := congrArg List.length (splitext_data s)
  rw [List.length_append] at h
  exact h

/-- Every rename makes the name at least two characters longer. -/
theorem deDupeRename_len (n : String) (k : Nat) :
    n.length + 2 ≤ (deDupeRename n k).length := by
  have hsplit := splitext_length n
  have hparen1 : ("(" : String).length = 1 := rfl
  have hparen2 : (")" : String).length = 1 := rfl
  rw [deDupeRename]
  by_cases hbin : (splitext n).2 ≠ ".bin"
  · rw [if_pos hbin]
    simp only [String.length_append]
    omega
  · rw [if_neg hbin]
    split
    · simp only [String.length_append]
      omega
    · rename_i pre post hr
      by_cases hnum : pyIntOk post
      · rw [if_pos hnum]
        have hroot := congrArg List.length (lastSplit_eq hr)
        simp only [List.length_append, List.length_cons] at hroot
        have e1 : (String.mk pre).length = pre.length := rfl
        have e2 : (String.mk ('-' :: post)).length = post.length + 1 := by
          show ('-' :: post).length = post.length + 1
          rw [List.length_cons]
        have e3 : (splitext n).1.length = (splitext n).1.data.length := rfl
        simp only [String.length_append]
        omega
      · rw [if_neg hnum]
        simp only [String.length_append]
        omega

theorem maxKeyLen_cons (k : String) (v : List MdPair) (rest : ClashDict) :
    maxKeyLen ((k, v) :: rest) = max k.length (maxKeyLen rest) := rfl

theorem lookupName_le_maxKeyLen : ∀ {d : ClashDict} {n : String} {l : List MdPair},
    lookupName d n = some l → n.length ≤ maxKeyLen d := by
  intro d
  induction d with
  | nil => intro n l h; simp [lookupName] at h
  | cons kv rest ih =>
    intro n l h
    obtain ⟨k, v⟩ := kv
    rw [maxKeyLen_cons]
    simp only [lookupName] at h
    by_cases hk : k = n
    · subst hk
      exact Nat.le_max_left _ _
    · rw [if_neg hk] at h
      exact Nat.le_trans (ih h) (Nat.le_max_right _ _)

theorem lookupName_none_of_long {d : ClashDict} {n : String}
    (h : maxKeyLen d < n.length) : lookupName d n = none := by
  cases hl : lookupName d n with
  | none => rfl
  | some l => exact absurd (lookupName_le_maxKeyLen hl) (by omega)

theorem maxKeyLen_addPair (d : ClashDict) (n : String) (p : MdPair) :
    maxKeyLen (addPair d n p) = maxKeyLen d := by
  induction d with
  | nil => rfl
  | cons kv rest ih =>
    obtain ⟨k, v⟩ := kv
    by_cases hk : k = n
    · simp [addPair, hk, maxKeyLen_cons]
    · simp only [addPair, if_neg hk, maxKeyLen_cons, ih]

theorem lookupName_addPair_self {d : ClashDict} {n : String} {lst : List MdPair}
    (h : lookupName d n = some lst) (p : MdPair) :
    lookupName (addPair d n p) n = some (lst ++ [p]) := by
  induction d with
  | nil => simp [lookupName] at h
  | cons kv rest ih =>
    obtain ⟨k, v⟩ := kv
    simp only [lookupName] at h
    by_cases hk : k = n
    · rw [if_pos hk] at h
      cases h
      simp [addPair, hk, lookupName]
    · rw [if_neg hk] at h
      simp [addPair, hk, lookupName, ih h]

theorem lookupName_addPair_ne {d : ClashDict} {n m : String} (p : MdPair)
    (h : m ≠ n) : lookupName (addPair d n p) m = lookupName d m := by
  induction d with
  | nil => rfl
  | cons kv rest ih =>
    obtain ⟨k, v⟩ := kv
    by_cases hk : k = n
    · subst hk
      simp [addPair, lookupName, Ne.symm h]
    · simp [addPair, hk, lookupName]
      by_cases hm : k = m
      · simp [hm]
      · simp [hm, ih]

theorem lookupName_append_some {d e : ClashDict} {m : String} {v : List MdPair}
    (h : lookupName d m = some v) : lookupName (d ++ e) m = some v := by
  induction d with
  | nil => simp [lookupName] at h
  | cons kv rest ih =>
    obtain ⟨k, w⟩ := kv
    simp only [lookupName] at h ⊢
    by_cases hk : k = m
    · simpa [hk] using h
    · rw [if_neg hk] at h ⊢
      exact ih h

theorem lookupName_append_none {d e : ClashDict} {m : String}
    (h : lookupName d m = none) : lookupName (d ++ e) m = lookupName e m := by
  induction d with
  | nil => simp
  | cons kv rest ih =>
    obtain ⟨k, w⟩ := kv
    simp only [lookupName] at h ⊢
    by_cases hk : k = m
    · simp [hk] at h
    · rw [if_neg hk] at h ⊢
      exact ih h

theorem lookupName_none_of_append {d e : ClashDict} {m : String}
    (h : lookupName (d ++ e) m = none) : lookupName d m = none := by
  cases hl : lookupName d m with
  | none => rfl
  | some v => rw [lookupName_append_some hl] at h; cases h

theorem lookup_insert_self {d : ClashDict} {n : String} (l : List MdPair)
    (h : lookupName d n = none) : lookupName (d ++ [(n, l)]) n = some l := by
  rw [lookupName_append_none h]
  simp [lookupName]

/-- Key-set monotonicity of the dedup recursion: a name unbound after the
call was unbound before it. -/
theorem dedupFuel_keys : ∀ (f : Nat) {n : String} {p : MdPair} {d : ClashDict}
    {res : Option String} {d2 : ClashDict},
    dedupNameFuel f n p d = (res, d2) → ∀ m, lookupName d2 m = none →
    lookupName d m = none := by
  intro f
  induction f with
  | zero =>
    intro n p d res d2 h m hm
    simp only [dedupNameFuel, Prod.mk.injEq] at h
    obtain ⟨-, h2⟩ := h
    subst h2
    exact lookupName_none_of_append hm
  | succ f ih =>
    intro n p d res d2 h m hm
    simp only [dedupNameFuel] at h
    split at h
    · injection h with h1 h2
      subst h2
      exact lookupName_none_of_append hm
    · rename_i lst hl
      by_cases hp : p ∈ lst
      · rw [if_pos hp] at h
        injection h with h1 h2
        subst h2
        exact hm
      · rw [if_neg hp] at h
        have hm2 := ih h m hm
        by_cases hmn : m = n
        · subst hmn
          rw [lookupName_addPair_self hl p] at hm2
          cases hm2
        · rwa [lookupName_addPair_ne p hmn] at hm2

/-- With sufficient fuel, a kept result name was unbound before the call
and is bound after it with the pair recorded. -/
theorem dedupFuel_fresh : ∀ (f : Nat) {n : String} {p : MdPair} {d : ClashDict}
    {m : String} {d2 : ClashDict},
    maxKeyLen d + 1 - n.length ≤ f →
    dedupNameFuel f n p d = (some m, d2) →
    lookupName d m = none ∧ ∃ lst, lookupName d2 m = some lst ∧ p ∈ lst := by
  intro f
  induction f with
  | zero =>
    intro n p d m d2 hf h
    simp only [dedupNameFuel, Prod.mk.injEq, Option.some.injEq] at h
    obtain ⟨h1, h2⟩ := h
    subst h1
    subst h2
    exact ⟨lookupName_none_of_long (by omega), [p],
      lookup_insert_self [p] (lookupName_none_of_long (by omega)), by simp⟩
  | succ f ih =>
    intro n p d m d2 hf h
    simp only [dedupNameFuel] at h
    split at h
    · rename_i hl
      injection h with h1 h2
      injection h1 with h1
      subst h1
      subst h2
      exact ⟨hl, [p], lookup_insert_self [p] hl, by simp⟩
    · rename_i lst hl
      by_cases hp : p ∈ lst
      · rw [if_pos hp] at h
        injection h with h1 h2
        cases h1
      · rw [if_neg hp] at h
        have hle := lookupName_le_maxKeyLen hl
        have hlen := deDupeRename_len n lst.length
        have hf2 : maxKeyLen (addPair d n p) + 1 - (deDupeRename n lst.length).length ≤ f := by
          rw [maxKeyLen_addPair]
          omega
        obtain ⟨h1, h2⟩ := ih hf2 h
        refine ⟨?_, h2⟩
        by_cases hmn : m = n
        · subst hmn
          rw [lookupName_addPair_self hl p] at h1
          cases h1
        · rwa [lookupName_addPair_ne p hmn] at h1

theorem dedupName_keys {n : String} {p : MdPair} {d : ClashDict}
    {res : Option String} {d2 : ClashDict}
    (h : deDuplicateName n p d = (res, d2)) {m : String}
    (hm : lookupName d2 m = none) : lookupName d m = none :=
  dedupFuel_keys _ h m hm

theorem dedupName_fresh {n : String} {p : MdPair} {d : ClashDict}
    {m : String} {d2 : ClashDict}
    (h : deDuplicateName n p d = (some m, d2)) :
    lookupName d m = none ∧ ∃ lst, lookupName d2 m = some lst ∧ p ∈ lst :=
  dedupFuel_fresh _ (Nat.le_refl _) h

/-- An already-recorded (name, md5, size) triple is reported as a duplicate
and the dictionary is unchanged. -/
theorem dedupName_dup {n : String} {p : MdPair} {d : ClashDict} {lst : List MdPair}
    (h : lookupName d n = some lst) (hp : p ∈ lst) :
    deDuplicateName n p d = (none, d) := by
  have hle := lookupName_le_maxKeyLen h
  obtain ⟨k, hk⟩ : ∃ k, maxKeyLen d + 1 - n.length = k + 1 := ⟨maxKeyLen d - n.length, by omega⟩
  unfold deDuplicateName
  rw [hk]
  simp [dedupNameFuel, h, hp]

/-- Unfolding of deDuplicateList on an entry without a name. -/
theorem dedupList_cons_none {a : GameEntry} (rest : List GameEntry) (d : ClashDict)
    (ha : a.name = none) :
    deDuplicateList (a :: rest) d
      = (a :: (deDuplicateList rest d).1, (deDuplicateList rest d).2) := by
  simp only [deDuplicateList]
  split
  · rfl
  · rename_i nn hsome
    rw [ha] at hsome
    cases hsome

/-- Unfolding of deDuplicateList on a dropped duplicate. -/
theorem dedupList_cons_drop {a : GameEntry} (rest : List GameEntry) (d : ClashDict)
    {an : String} (ha : a.name = some an) {d1 : ClashDict}
    (hd : deDuplicateName an (entryPair a) d = (none, d1)) :
    deDuplicateList (a :: rest) d = deDuplicateList rest d1 := by
  simp only [deDuplicateList]
  split
  · rename_i hnone
    rw [ha] at hnone
    cases hnone
  · rename_i nn hsome
    rw [ha] at hsome
    injection hsome with h1
    subst h1
    split
    · rename_i d1x hx
      rw [hd] at hx
      injection hx with h2 h3
      subst h3
      rfl
    · rename_i mm d1x hx
      rw [hd] at hx
      injection hx with h2 h3
      cases h2

/-- Unfolding of deDuplicateList on a kept entry. -/
theorem dedupList_cons_keep {a : GameEntry} (rest : List GameEntry) (d : ClashDict)
    {an : String} (ha : a.name = some an) {m : String} {d1 : ClashDict}
    (hd : deDuplicateName an (entryPair a) d = (some m, d1)) :
    deDuplicateList (a :: rest) d
      = ({ a with name := some m } :: (deDuplicateList rest d1).1,
         (deDuplicateList rest d1).2) := by
  simp only [deDuplicateList]
  split
  · rename_i hnone
    rw [ha] at hnone
    cases hnone
  · rename_i nn hsome
    rw [ha] at hsome
    injection hsome with h1
    subst h1
    split
    · rename_i d1x hx
      rw [hd] at hx
      injection hx with h2 h3
      cases h2
    · rename_i mm d1x hx
      rw [hd] at hx
      injection hx with h2 h3
      injection h2 with h2
      subst h2
      subst h3
      rfl

/-- Every named entry of the dedup output carries a name that was not a key
of the incoming clash dictionary. -/
theorem dedupList_names_not_key : ∀ (l : List GameEntry) (d : ClashDict)
    {e : GameEntry}, e ∈ (deDuplicateList l d).1 → ∀ {n : String},
    e.name = some n → lookupName d n = none := by
  intro l
  induction l with
  | nil => intro d e he; simp [deDuplicateList] at he
  | cons a rest ih =>
    intro d e he n hn
    cases ha : a.name with
    | none =>
      rw [dedupList_cons_none rest d ha] at he
      cases List.mem_cons.mp he with
      | inl heq => subst heq; rw [hn] at ha; cases ha
      | inr hmem => exact ih d hmem hn
    | some an =>
      cases hd : deDuplicateName an (entryPair a) d with
      | mk r d1 =>
        cases r with
        | none =>
          rw [dedupList_cons_drop rest d ha hd] at he
          exact dedupName_keys hd (ih d1 he hn)
        | some m =>
          rw [dedupList_cons_keep rest d ha hd] at he
          cases List.mem_cons.mp he with
          | inl heq =>
            subst heq
            simp only at hn
            cases hn
            exact (dedupName_fresh hd).1
          | inr hmem => exact dedupName_keys hd (ih d1 hmem hn)

/-- No two entries of the dedup output share a resolved name at all. -/
theorem dedupList_distinct : ∀ (l : List GameEntry) (d : ClashDict),
    (deDuplicateList l d).1.Pairwise
      (fun a b => ∀ n : String, a.name = some n → b.name ≠ some n) := by
  intro l
  induction l with
  | nil => intro d; simp [deDuplicateList]
  | cons a rest ih =>
    intro d
    cases ha : a.name with
    | none =>
      rw [dedupList_cons_none rest d ha]
      refine List.Pairwise.cons ?_ (ih d)
      intro b _ n hn
      rw [ha] at hn
      cases hn
    | some an =>
      cases hd : deDuplicateName an (entryPair a) d with
      | mk r d1 =>
        cases r with
        | none =>
          rw [dedupList_cons_drop rest d ha hd]
          exact ih d1
        | some m =>
          rw [dedupList_cons_keep rest d ha hd]
          refine List.Pairwise.cons ?_ (ih d1)
          intro b hb n hn hbn
          simp only at hn
          cases hn
          have hnone := dedupList_names_not_key rest d1 hb hbn
          obtain ⟨-, lst, hsome, -⟩ := dedupName_fresh hd
          rw [hnone] at hsome
          cases hsome

/-- Entries without a resolved name pass through unchanged. -/
theorem dedupList_none_passthrough : ∀ (l : List GameEntry) (d : ClashDict),
    (deDuplicateList l d).1.filter (fun e => e.name.isNone)
      = l.filter (fun e => e.name.isNone) := by
  intro l
  induction l with
  | nil => intro d; simp [deDuplicateList]
  | cons a rest ih =>
    intro d
    cases ha : a.name with
    | none =>
      rw [dedupList_cons_none rest d ha]
      simp only [List.filter_cons, ha, Option.isNone_none, if_pos]
      rw [ih d]
    | some an =>
      cases hd : deDuplicateName an (entryPair a) d with
      | mk r d1 =>
        cases r with
        | none =>
          rw [dedupList_cons_drop rest d ha hd, ih d1]
          simp [List.filter_cons, ha]
        | some m =>
          rw [dedupList_cons_keep rest d ha hd]
          simp only [List.filter_cons]
          rw [ih d1]
          simp [ha]

/-! ## Claims about the deduplicator -/

/-- C2: for every input list of entry descriptors and every initial
seen-map, the deduplicated output contains no two entries with the same
resolved name unless their (checksum, size) pairs are identical; an entry
whose (name, checksum, size) triple was already recorded is dropped from
the output; and entries with name = None pass through unchanged. -/
theorem claim_C2_dedup_uniqueness (l : List GameEntry) (d : ClashDict) :
    ((deDuplicateList l d).1.Pairwise (fun a b => ∀ n : String,
        a.name = some n → b.name = some n → entryPair a = entryPair b))
    ∧ ((deDuplicateList l d).1.filter (fun e => e.name.isNone)
        = l.filter (fun e => e.name.isNone))
    ∧ (∀ (e : GameEntry) (rest : List GameEntry) (n : String) (lst : List MdPair),
        l = e :: rest → e.name = some n → lookupName d n = some lst →
        entryPair e ∈ lst → deDuplicateList l d = deDuplicateList rest d) := by
  refine ⟨?_, dedupList_none_passthrough l d, ?_⟩
  · exact (dedupList_distinct l d).imp (fun hab n ha hb => absurd hb (hab n ha))
  · intro e rest n lst hl hn hlk hp
    subst hl
    exact dedupList_cons_drop rest d hn (dedupName_dup hlk hp)

/-- Witness for C2: a concrete entry whose (name, md5, size) triple is
already recorded in the seen-map is dropped. -/
theorem claim_C2_dedup_uniqueness_witness :
    deDuplicateList
        [⟨"d", "windows", "English", none, "h", some "aa", some "x.exe", some 7, false⟩]
        [("x.exe", [(some "aa", some 7)])]
      = deDuplicateList [] [("x.exe", [(some "aa", some 7)])] :=
  (claim_C2_dedup_uniqueness
      [⟨"d", "windows", "English", none, "h", some "aa", some "x.exe", some 7, false⟩]
      [("x.exe", [(some "aa", some 7)])]).2.2
    ⟨"d", "windows", "English", none, "h", some "aa", some "x.exe", some 7, false⟩
    [] "x.exe" [(some "aa", some 7)] rfl rfl (by decide) (by decide)

/-- C3: the collision rename is deterministic in the count of recorded
pairs for the clashing name: for a non-.bin name the ordinal goes before
the extension, for a .bin name with a hyphen-delimited numeric tail it goes
before the tail; the recursion only ever returns a name that was not yet
recorded; and two entries both named patch.exe with different checksums
come out as patch.exe and patch(1).exe. -/
theorem claim_C3_rename_scheme :
    (∀ (name : String) (k : Nat), (splitext name).2 ≠ ".bin" →
      deDupeRename name k
        = (splitext name).1 ++ "(" ++ toString k ++ ")" ++ (splitext name).2)
    ∧ (∀ (name : String) (k : Nat) (pre post : List Char),
        (splitext name).2 = ".bin" →
        lastSplit '-' (splitext name).1.data = some (pre, post) →
        pyIntOk post = true →
        deDupeRename name k
          = String.mk pre ++ "(" ++ toString k ++ ")" ++ String.mk ('-' :: post)
            ++ (splitext name).2)
    ∧ (∀ (n : String) (p : MdPair) (d : ClashDict) (m : String) (d2 : ClashDict),
        deDuplicateName n p d = (some m, d2) → lookupName d m = none)
    ∧ ((deDuplicateList
          [⟨"d1", "windows", "English", none, "h1", some "md5a", some "patch.exe", some 10, false⟩,
           ⟨"d2", "windows", "English", none, "h2", some "md5b", some "patch.exe", some 11, false⟩]
          []).1.map (fun e => e.name)
        = [some "patch.exe", some "patch(1).exe"]) := by
  refine ⟨?_, ?_, ?_, ?_⟩
  · intro name k h
    rw [deDupeRename, if_pos h]
  · intro name k pre post hbin hr hnum
    rw [deDupeRename, if_neg (by simp [hbin])]
    split
    · rename_i hnone
      rw [hr] at hnone
      cases hnone
    · rename_i pre1 post1 hsome
      rw [hr] at hsome
      injection hsome with h1
      injection h1 with h2 h3
      subst h2
      subst h3
      rw [if_pos hnum]
  · intro n p d m d2 h
    exact (dedupName_fresh h).1
  · decide

/-- Witness for C3 at the patch.exe scenario: the rename formula applies
with ordinal 1 before the extension. -/
theorem claim_C3_rename_scheme_witness :
    deDupeRename "patch.exe" 1
      = (splitext "patch.exe").1 ++ "(" ++ toString 1 ++ ")" ++ (splitext "patch.exe").2 :=
  claim_C3_rename_scheme.1 "patch.exe" 1 (by decide)

/-! ## Claims about the request helper -/

theorem isTransient_spec {o : Outcome} (h : isTransient o = true) :
    o ≠ .success ∧ isPermanent o = false := by
  cases o with
  | success => simp [isTransient] at h
  | httpError c =>
    refine ⟨by simp, ?_⟩
    simpa [isTransient] using h
  | netError =>
    refine ⟨by simp, ?_⟩
    simpa [isTransient] using h

/-- A permanent status code propagates at once, whatever retry budget is
left: one attempt, one sleep. -/
theorem requestModel_permanent (outcomes : Nat → Outcome) (a retries delay : Nat)
    (h : isPermanent (outcomes a) = true) :
    requestModel outcomes a retries delay = (.raised (outcomes a) a, [delay]) := by
  have hns : outcomes a ≠ .success := by
    intro he
    rw [he] at h
    simp [isPermanent] at h
  cases retries with
  | zero => simp [requestModel, if_neg hns, h]
  | succ r => simp [requestModel, if_neg hns, h]

/-- A run of transient failures exhausts the retry budget: the error is
propagated only after retries + 1 attempts, each retry sleeping
HTTP_RETRY_DELAY. -/
theorem requestModel_transient_exhaust : ∀ (r : Nat) (outcomes : Nat → Outcome)
    (a delay : Nat),
    (∀ k, k ≤ r → isTransient (outcomes (a + k)) = true) →
    requestModel outcomes a r delay
      = (.raised (outcomes (a + r)) (a + r),
         delay :: List.replicate r HTTP_RETRY_DELAY) := by
  intro r
  induction r with
  | zero =>
    intro outcomes a delay h
    obtain ⟨hns, hnp⟩ := isTransient_spec (h 0 (Nat.le_refl 0))
    rw [Nat.add_zero] at hns hnp
    simp [requestModel, if_neg hns, hnp]
  | succ r ih =>
    intro outcomes a delay h
    obtain ⟨hns, hnp⟩ := isTransient_spec (h 0 (Nat.zero_le _))
    rw [Nat.add_zero] at hns hnp
    have hrec := ih outcomes (a + 1) HTTP_RETRY_DELAY (fun k hk => by
      have hx := h (k + 1) (by omega)
      rw [show a + 1 + k = a + (k + 1) by omega]
      exact hx)
    simp only [requestModel, if_neg hns, hnp, Bool.false_eq_true, if_false]
    rw [hrec]
    have hshift : a + 1 + r = a + (r + 1) := by omega
    simp [hshift, List.replicate_succ]

/-- A success within the budget ends the retry loop with a page. -/
theorem requestModel_success : ∀ (r : Nat) (outcomes : Nat → Outcome)
    (a delay j : Nat),
    j ≤ r → (∀ k, k < j → isTransient (outcomes (a + k)) = true) →
    outcomes (a + j) = .success →
    (requestModel outcomes a r delay).1 = .ok (a + j) := by
  intro r
  induction r with
  | zero =>
    intro outcomes a delay j hj htrans hsucc
    have hj0 : j = 0 := by omega
    subst hj0
    rw [Nat.add_zero] at hsucc ⊢
    simp [requestModel, hsucc]
  | succ r ih =>
    intro outcomes a delay j hj htrans hsucc
    cases j with
    | zero =>
      rw [Nat.add_zero] at hsucc ⊢
      simp [requestModel, hsucc]
    | succ j0 =>
      obtain ⟨hns, hnp⟩ : outcomes (a + 0) ≠ .success ∧ isPermanent (outcomes (a + 0)) = false :=
        isTransient_spec (htrans 0 (by omega))
      rw [Nat.add_zero] at hns hnp
      have hrec := ih outcomes (a + 1) HTTP_RETRY_DELAY j0 (by omega)
        (fun k hk => by
          have hx := htrans (k + 1) (by omega)
          rw [show a + 1 + k = a + (k + 1) by omega]
          exact hx)
        (by rw [show a + 1 + j0 = a + (j0 + 1) by omega]; exact hsucc)
      simp only [requestModel, if_neg hns, hnp, Bool.false_eq_true, if_false]
      rw [show a + (j0 + 1) = a + 1 + j0 by omega]
      exact hrec

/-- C5: a permanent status (404, 403, 503) raises at once with no retry;
any other failure is retried up to HTTP_RETRY_COUNT times with
HTTP_RETRY_DELAY between attempts, the error propagating only when the
budget is exhausted, and a success within the budget ends the loop. -/
theorem claim_C5_retry_policy :
    (∀ (outcomes : Nat → Outcome) (a retries delay : Nat),
       isPermanent (outcomes a) = true →
       requestModel outcomes a retries delay = (.raised (outcomes a) a, [delay]))
    ∧ (∀ (outcomes : Nat → Outcome) (a delay : Nat),
       (∀ k, k ≤ HTTP_RETRY_COUNT → isTransient (outcomes (a + k)) = true) →
       requestModel outcomes a HTTP_RETRY_COUNT delay
         = (.raised (outcomes (a + HTTP_RETRY_COUNT)) (a + HTTP_RETRY_COUNT),
            delay :: List.replicate HTTP_RETRY_COUNT HTTP_RETRY_DELAY))
    ∧ (∀ (outcomes : Nat → Outcome) (a delay j : Nat),
       j ≤ HTTP_RETRY_COUNT → (∀ k, k < j → isTransient (outcomes (a + k)) = true) →
       outcomes (a + j) = .success →
       (requestModel outcomes a HTTP_RETRY_COUNT delay).1 = .ok (a + j)) :=
  ⟨requestModel_permanent,
   fun outcomes a delay h => requestModel_transient_exhaust HTTP_RETRY_COUNT outcomes a delay h,
   fun outcomes a delay j hj ht hs => requestModel_success HTTP_RETRY_COUNT outcomes a delay j hj ht hs⟩

/-- Witness for C5: a 404 on the first attempt is raised with a single
sleep of the initial delay, despite a full retry budget. -/
theorem claim_C5_retry_policy_witness :
    requestModel (fun _ => .httpError 404) 0 HTTP_RETRY_COUNT HTTP_FETCH_DELAY
      = (.raised (.httpError 404) 0, [HTTP_FETCH_DELAY]) :=
  claim_C5_retry_policy.1 (fun _ => .httpError 404) 0 HTTP_RETRY_COUNT HTTP_FETCH_DELAY
    (by decide)

/-! ## Claims about the download work list and the worker -/

theorem bfsLookup_insert_self (fs : ByteFS) (p : String) (v : List Nat) :
    bfsLookup (bfsInsert fs p v) p = some v := by
  induction fs with
  | nil => simp [bfsInsert, bfsLookup]
  | cons kv rest ih =>
    obtain ⟨k, w⟩ := kv
    by_cases hk : k = p
    · simp [bfsInsert, hk, bfsLookup]
    · simp [bfsInsert, hk, bfsLookup, ih]

/-- An entry whose destination file already has exactly the expected size
does not change the work dictionary. -/
theorem enqueueEntry_skip_exact (fs : ByteFS) (itemHomedir : String) (wd : WorkDict)
    {gi : GameEntry} {nm : String} {content : List Nat}
    (hname : gi.name = some nm)
    (hfile : bfsLookup fs (joinPath itemHomedir nm) = some content)
    (hsize : gi.size = some content.length) :
    enqueueEntry fs itemHomedir wd gi = some wd := by
  simp [enqueueEntry, hname, hfile, hsize]

/-- C6: an entry whose destination file exists with exactly the expected
size contributes nothing to the work queue: the queue built with it present
equals the queue built without it, so no worker ever fetches it. -/
theorem claim_C6_skip_exact_size (fs : ByteFS) (itemHomedir : String) (wd : WorkDict)
    (l1 l2 : List GameEntry) (gi : GameEntry) (nm : String) (content : List Nat)
    (hname : gi.name = some nm)
    (hfile : bfsLookup fs (joinPath itemHomedir nm) = some content)
    (hsize : gi.size = some content.length) :
    buildWorkDict fs itemHomedir (l1 ++ gi :: l2) wd
      = buildWorkDict fs itemHomedir (l1 ++ l2) wd := by
  induction l1 generalizing wd with
  | nil =>
    simp only [List.nil_append, buildWorkDict,
      enqueueEntry_skip_exact fs itemHomedir wd hname hfile hsize, Option.some_bind]
  | cons a rest ih =>
    simp only [List.cons_append, buildWorkDict]
    cases enqueueEntry fs itemHomedir wd a with
    | none => simp
    | some wd1 => simpa using ih wd1

/-- Witness for C6: with a single exact-size entry the work dictionary
stays empty. -/
theorem claim_C6_skip_exact_size_witness :
    buildWorkDict [("dir/foo/a.zip", [1, 2, 3])] "dir/foo"
        ([] ++ [⟨"d", "windows", "English", none, "h", none, some "a.zip", some 3, false⟩] ++ [])
        []
      = buildWorkDict [("dir/foo/a.zip", [1, 2, 3])] "dir/foo" ([] ++ []) [] :=
  claim_C6_skip_exact_size [("dir/foo/a.zip", [1, 2, 3])] "dir/foo" [] [] []
    ⟨"d", "windows", "English", none, "h", none, some "a.zip", some 3, false⟩
    "a.zip" [1, 2, 3] rfl (by decide) rfl

/-- Counterexample to C1 as stated: a destination file truncated to 1 byte
of an expected 2 is re-enqueued with seek offset 0 and byte range (0, 1),
not the claimed resume offset 1 and range (1, 1). -/
theorem claim_C1_cex :
    (buildWorkDict [("dir/g/a.bin", [9])] "dir/g"
        [⟨"d", "windows", "English", none, "hr", none, some "a.bin", some 2, false⟩] []
      = some [("dir/g/a.bin", ⟨"hr", 2, 0, 1, "dir/g/a.bin"⟩)])
    ∧ (0 : Nat) ≠ 1 := by
  constructor
  · decide
  · decide

/-- C1 amended: an entry whose destination file exists with a size k that
differs from the expected size sz is enqueued with offset 0 and range
(0, sz - 1); the worker seeks to 0 and rewrites the whole file, and for
0 < k < sz the final file is byte for byte the remote content, identical to
a single-pass download into a fresh file. -/
theorem claim_C1_restart_correct (fs fs2 : ByteFS) (itemHomedir : String)
    (wd : WorkDict) (gi : GameEntry) (nm : String) (content : List Nat)
    (remote : List Nat) (sz : Nat)
    (hname : gi.name = some nm)
    (hfile : bfsLookup fs (joinPath itemHomedir nm) = some content)
    (hsize : gi.size = some sz)
    (hk : content.length < sz)
    (hremote : remote.length = sz)
    (hfresh : bfsLookup fs2 (joinPath itemHomedir nm) = none) :
    enqueueEntry fs itemHomedir wd gi
      = some (wdInsert wd (joinPath itemHomedir nm)
          ⟨gi.href, sz, 0, sz - 1, joinPath itemHomedir nm⟩)
    ∧ bfsLookup
        (workerRun remote ⟨gi.href, sz, 0, sz - 1, joinPath itemHomedir nm⟩ fs)
        (joinPath itemHomedir nm) = some remote
    ∧ bfsLookup
        (workerRun remote ⟨gi.href, sz, 0, sz - 1, joinPath itemHomedir nm⟩ fs2)
        (joinPath itemHomedir nm) = some remote := by
  refine ⟨?_, ?_, ?_⟩
  · have hne : sz ≠ content.length := by omega
    simp [enqueueEntry, hname, hfile, hsize, hne]
  · rw [workerRun]
    simp only [hfile, Option.getD_some, hremote, if_pos rfl]
    have hnotlong : ¬ content.length > sz := by omega
    rw [if_neg hnotlong]
    have hbody : rangeBody remote 0 (sz - 1) = remote := by
      rw [rangeBody, List.drop_zero]
      have : sz - 1 + 1 = sz := by omega
      rw [this, ← hremote, List.take_length]
    rw [hbody, writeAt]
    have hpad : sz - content.length ≥ 0 := by omega
    have hdrop : (content ++ List.replicate (0 - content.length) 0).drop (0 + remote.length) = [] := by
      apply List.drop_eq_nil_of_le
      simp [List.length_append, List.length_replicate]
      omega
    rw [List.take_zero, hdrop]
    simp [bfsLookup_insert_self]
  · rw [workerRun]
    simp only [hfresh, Option.getD_none, hremote, if_pos rfl]
    have hnotlong : ¬ ([] : List Nat).length > sz := by simp
    rw [if_neg hnotlong]
    have hbody : rangeBody remote 0 (sz - 1) = remote := by
      rw [rangeBody, List.drop_zero]
      have : sz - 1 + 1 = sz := by omega
      rw [this, ← hremote, List.take_length]
    rw [hbody, writeAt]
    simp [bfsLookup_insert_self]

/-- Witness for the amended C1 at a concrete one-byte partial file. -/
theorem claim_C1_restart_correct_witness :
    enqueueEntry [("dir/g/a.bin", [9])] "dir/g" []
        ⟨"d", "windows", "English", none, "hr", none, some "a.bin", some 2, false⟩
      = some (wdInsert [] (joinPath "dir/g" "a.bin")
          ⟨"hr", 2, 0, 2 - 1, joinPath "dir/g" "a.bin"⟩)
    ∧ bfsLookup (workerRun [7, 8] ⟨"hr", 2, 0, 2 - 1, joinPath "dir/g" "a.bin"⟩
        [("dir/g/a.bin", [9])]) (joinPath "dir/g" "a.bin") = some [7, 8]
    ∧ bfsLookup (workerRun [7, 8] ⟨"hr", 2, 0, 2 - 1, joinPath "dir/g" "a.bin"⟩ [])
        (joinPath "dir/g" "a.bin") = some [7, 8] :=
  claim_C1_restart_correct [("dir/g/a.bin", [9])] [] "dir/g" []
    ⟨"d", "windows", "English", none, "hr", none, some "a.bin", some 2, false⟩
    "a.bin" [9] [7, 8] 2 rfl (by decide) rfl (by decide) rfl rfl

/-! ## Claims about manifest persistence -/

theorem manifestText_length (items : List Game) :
    2 ≤ (manifestText items).length := by
  rw [manifestText]
  simp only [String.length_append]
  have h2 : ("# " : String).length = 2 := rfl
  omega

/-- Counterexample to C8 as stated: save_manifest interrupted after its
open truncates the manifest to an empty file that is neither the old nor
the new content, and the steps are issued even when the new text is byte
identical to the file on disk (the step list is a function of the items
alone and is never empty). -/
theorem claim_C8_cex :
    runSteps (some (manifestText [])) ((saveManifestSteps []).take 1) = some ""
    ∧ some "" ≠ some (manifestText ([] : List Game))
    ∧ saveManifestSteps ([] : List Game) ≠ [] := by
  refine ⟨rfl, ?_, by simp [saveManifestSteps]⟩
  intro h
  injection h with h1
  have hlen := manifestText_length ([] : List Game)
  rw [← h1] at hlen
  exact absurd hlen (by decide)

/-- C8 amended: save_manifest always truncates the manifest in place and
rewrites it, with no temporary file and no content comparison, so a
completed save holds exactly the new text while an interrupted one can
leave a partial file; the content-equality skip exists only in
ConditionalWriter, which the source uses for the info and serial sidecar
files. -/
theorem claim_C8_save_in_place :
    (∀ (items : List Game) (file : Option String),
       runSteps file (saveManifestSteps items) = some (manifestText items))
    ∧ (∀ (path content : String),
       conditionalWriterSteps path content (some content) = [])
    ∧ (∀ (path content : String) (existing : Option String),
       existing ≠ some content →
       conditionalWriterSteps path content existing
         = [.openTruncate path, .writeAll path content]) := by
  refine ⟨fun items file => rfl, fun path content => by simp [conditionalWriterSteps], ?_⟩
  intro path content existing h
  simp [conditionalWriterSteps, h]

/-- Witness for the amended C8: an absent sidecar file is written. -/
theorem claim_C8_save_in_place_witness :
    conditionalWriterSteps "f" "x" none = [.openTruncate "f", .writeAll "f" "x"] :=
  claim_C8_save_in_place.2.2 "f" "x" none (by simp)

/-! ## Claims about the verify pass -/

theorem fsLookup_erase_self (fs : FS) (p : String) :
    fsLookup (fsErase fs p) p = none := by
  induction fs with
  | nil => rfl
  | cons kv rest ih =>
    obtain ⟨k, v⟩ := kv
    by_cases hk : k = p
    · simpa [fsErase, hk] using ih
    · simpa [fsErase, hk, fsLookup] using ih

/-- Unfolding of verifyEntry on a present failing file with delete
remediation. -/
theorem verifyEntry_present_delete (cfg : VerifyCfg) (gamedir title : String)
    (st : VState) (itm : GameEntry) (nm : String) (fi : FileInfo)
    (hname : itm.name = some nm)
    (hfile : fsLookup st.fs (joinPath gamedir (joinPath title nm)) = some fi)
    (hfail : verifyFail cfg itm nm fi = true)
    (hdel : cfg.delete_on_fail = true)
    (hclean : cfg.clean_on_fail = false) :
    verifyEntry cfg gamedir title st itm =
      ({ fs := fsErase st.fs (joinPath gamedir (joinPath title nm)),
         item_count := st.item_count + 1,
         missing_cnt := st.missing_cnt,
         bad_md5_cnt := st.bad_md5_cnt + (if md5Fail cfg itm fi then 1 else 0),
         bad_size_cnt := st.bad_size_cnt + (if sizeFail cfg itm fi then 1 else 0),
         bad_zip_cnt := st.bad_zip_cnt + (if zipFail cfg nm fi then 1 else 0),
         del_file_cnt := st.del_file_cnt + 1,
         clean_file_cnt := st.clean_file_cnt },
       { itm with prev_verified := false }) := by
  simp [verifyEntry, hname, hfile, hfail, hdel, hclean]

/-- C9: with delete-on-fail, a present file that fails an enabled check is
removed from disk, the deleted counter rises by exactly 1, the raw missing
counter is untouched, and the reported missing total
(missing + deleted + cleaned) rises by exactly 1. -/
theorem claim_C9_delete_on_fail (cfg : VerifyCfg) (gamedir title : String)
    (st : VState) (itm : GameEntry) (nm : String) (fi : FileInfo)
    (hname : itm.name = some nm)
    (hfile : fsLookup st.fs (joinPath gamedir (joinPath title nm)) = some fi)
    (hfail : verifyFail cfg itm nm fi = true)
    (hdel : cfg.delete_on_fail = true)
    (hclean : cfg.clean_on_fail = false) :
    (verifyEntry cfg gamedir title st itm).1.del_file_cnt = st.del_file_cnt + 1
    ∧ reportedMissing (verifyEntry cfg gamedir title st itm).1
        = reportedMissing st + 1
    ∧ (verifyEntry cfg gamedir title st itm).1.missing_cnt = st.missing_cnt
    ∧ fsLookup (verifyEntry cfg gamedir title st itm).1.fs
        (joinPath gamedir (joinPath title nm)) = none := by
  rw [verifyEntry_present_delete cfg gamedir title st itm nm fi hname hfile hfail hdel hclean]
  refine ⟨rfl, ?_, rfl, fsLookup_erase_self _ _⟩
  simp [reportedMissing]
  omega

/-- Witness for C9: a present file of size 4 against an expected size 5 is
deleted and counted. -/
theorem claim_C9_delete_on_fail_witness :
    (verifyEntry ⟨true, true, true, true, false, false, false, false, false⟩
        "d" "t" (initVState [("d/t/a", ⟨"m", 4, true⟩)])
        ⟨"x", "windows", "English", none, "h", none, some "a", some 5, true⟩).1.del_file_cnt
      = (initVState [("d/t/a", ⟨"m", 4, true⟩)]).del_file_cnt + 1
    ∧ reportedMissing (verifyEntry ⟨true, true, true, true, false, false, false, false, false⟩
        "d" "t" (initVState [("d/t/a", ⟨"m", 4, true⟩)])
        ⟨"x", "windows", "English", none, "h", none, some "a", some 5, true⟩).1
      = reportedMissing (initVState [("d/t/a", ⟨"m", 4, true⟩)]) + 1
    ∧ (verifyEntry ⟨true, true, true, true, false, false, false, false, false⟩
        "d" "t" (initVState [("d/t/a", ⟨"m", 4, true⟩)])
        ⟨"x", "windows", "English", none, "h", none, some "a", some 5, true⟩).1.missing_cnt
      = (initVState [("d/t/a", ⟨"m", 4, true⟩)]).missing_cnt
    ∧ fsLookup (verifyEntry ⟨true, true, true, true, false, false, false, false, false⟩
        "d" "t" (initVState [("d/t/a", ⟨"m", 4, true⟩)])
        ⟨"x", "windows", "English", none, "h", none, some "a", some 5, true⟩).1.fs
        (joinPath "d" (joinPath "t" "a")) = none :=
  claim_C9_delete_on_fail ⟨true, true, true, true, false, false, false, false, false⟩
    "d" "t" (initVState [("d/t/a", ⟨"m", 4, true⟩)])
    ⟨"x", "windows", "English", none, "h", none, some "a", some 5, true⟩
    "a" ⟨"m", 4, true⟩ rfl (by decide) (by decide) rfl rfl

/-- C10: a missing file only bumps the known and missing counters and
leaves the entry, in particular its prev_verified flag, exactly as loaded;
a present file gets prev_verified set to the outcome of the enabled checks,
false exactly on a failure. -/
theorem claim_C10_missing_keeps_flag (cfg : VerifyCfg) (gamedir title : String)
    (st : VState) (itm : GameEntry) :
    (∀ nm, itm.name = some nm →
       fsLookup st.fs (joinPath gamedir (joinPath title nm)) = none →
       verifyEntry cfg gamedir title st itm
         = ({ st with
                item_count := st.item_count + 1
                missing_cnt := st.missing_cnt + 1 }, itm))
    ∧ (∀ nm fi, itm.name = some nm →
       fsLookup st.fs (joinPath gamedir (joinPath title nm)) = some fi →
       (verifyEntry cfg gamedir title st itm).2
         = { itm with prev_verified := !(verifyFail cfg itm nm fi) }) := by
  constructor
  · intro nm hname hmiss
    simp [verifyEntry, hname, hmiss]
  · intro nm fi hname hfile
    simp [verifyEntry, hname, hfile]

/-- Witness for C10: a deleted file of a previously verified entry leaves
prev_verified = true untouched while the missing counter rises. -/
theorem claim_C10_missing_keeps_flag_witness :
    verifyEntry ⟨true, true, true, false, false, false, false, false, false⟩
        "d" "t" (initVState [])
        ⟨"x", "windows", "English", none, "h", none, some "a", some 5, true⟩
      = (⟨[], 1, 1, 0, 0, 0, 0, 0⟩,
         ⟨"x", "windows", "English", none, "h", none, some "a", some 5, true⟩) :=
  (claim_C10_missing_keeps_flag ⟨true, true, true, false, false, false, false, false, false⟩
    "d" "t" (initVState [])
    ⟨"x", "windows", "English", none, "h", none, some "a", some 5, true⟩).1
    "a" rfl rfl

/-! ## C7: the verify pass never persists the manifest -/

theorem joinPath_has_slash (a b : String) : '/' ∈ (joinPath a b).data := by
  simp [joinPath, String.data_append]

theorem fsLookup_erase_ne (fs : FS) (p : String) {q : String} (h : q ≠ p) :
    fsLookup (fsErase fs p) q = fsLookup fs q := by
  have hpq : p ≠ q := Ne.symm h
  induction fs with
  | nil => rfl
  | cons kv rest ih =>
    obtain ⟨k, v⟩ := kv
    by_cases hk : k = p
    · subst hk
      simp [fsErase, fsLookup, hpq, ih]
    · by_cases hq : k = q
      · subst hq
        simp [fsErase, hk, fsLookup]
      · simp [fsErase, hk, fsLookup, hq, ih]

theorem fsLookup_insert_ne (fs : FS) (p : String) (v : FileInfo) {q : String}
    (h : q ≠ p) : fsLookup (fsInsert fs p v) q = fsLookup fs q := by
  induction fs with
  | nil => simp [fsInsert, fsLookup, Ne.symm h]
  | cons kv rest ih =>
    obtain ⟨k, w⟩ := kv
    by_cases hk : k = p
    · simp [fsInsert, hk, fsLookup, Ne.symm h]
    · simp only [fsInsert, if_neg hk, fsLookup]
      by_cases hq : k = q
      · simp [hq]
      · simp [hq, ih]

theorem fsLookup_move_ne (fs : FS) (src dst : String) {q : String}
    (h1 : q ≠ src) (h2 : q ≠ dst) :
    fsLookup (fsMove fs src dst) q = fsLookup fs q := by
  rw [fsMove]
  split
  · rw [fsLookup_insert_ne _ _ _ h2, fsLookup_erase_ne _ _ h1]
  · rfl

/-- One verify iteration only ever touches paths below the game directory,
which all contain a slash; lookups at slash-free paths are unchanged. -/
theorem verifyEntry_fs_preserves (cfg : VerifyCfg) (gamedir title : String)
    (st : VState) (itm : GameEntry) {q : String} (hq : '/' ∉ q.data) :
    fsLookup (verifyEntry cfg gamedir title st itm).1.fs q = fsLookup st.fs q := by
  have hqj : ∀ a b : String, q ≠ joinPath a b := by
    intro a b heq
    apply hq
    rw [heq]
    exact joinPath_has_slash a b
  cases hn : itm.name with
  | none => simp [verifyEntry, hn]
  | some nm =>
    cases hfl : fsLookup st.fs (joinPath gamedir (joinPath title nm)) with
    | none => simp [verifyEntry, hn, hfl]
    | some fi =>
      simp only [verifyEntry, hn, hfl]
      have herase := fun (fs2 : FS) =>
        fsLookup_erase_ne fs2 (joinPath gamedir (joinPath title nm)) (hqj _ _)
      have hmove := fun (fs2 : FS) =>
        fsLookup_move_ne fs2 (joinPath gamedir (joinPath title nm))
          (joinPath gamedir (joinPath ORPHAN_DIR_NAME (joinPath title nm)))
          (hqj _ _) (hqj _ _)
      by_cases hdel : (cfg.delete_on_fail && verifyFail cfg itm nm fi) = true
        <;> by_cases hclean : (cfg.clean_on_fail && verifyFail cfg itm nm fi) = true
        <;> simp [hdel, hclean, hmove, herase]

theorem verifyEntries_fs_preserves (cfg : VerifyCfg) (gamedir title : String) :
    ∀ (l : List GameEntry) (st : VState) {q : String}, '/' ∉ q.data →
    fsLookup (verifyEntries cfg gamedir title st l).1.fs q = fsLookup st.fs q := by
  intro l
  induction l with
  | nil => intro st q hq; rfl
  | cons e rest ih =>
    intro st q hq
    simp only [verifyEntries]
    rw [ih _ hq, verifyEntry_fs_preserves cfg gamedir title st e hq]

theorem verifyGame_fs_preserves (cfg : VerifyCfg) (gamedir : String)
    (osList langNames : List String) (st : VState) (g : Game) {q : String}
    (hq : '/' ∉ q.data) :
    fsLookup (verifyGame cfg gamedir osList langNames st g).1.fs q
      = fsLookup st.fs q := by
  simp only [verifyGame]
  rw [verifyEntries_fs_preserves cfg gamedir _ _ _ hq,
    verifyEntries_fs_preserves cfg gamedir _ _ _ hq,
    verifyEntries_fs_preserves cfg gamedir _ _ _ hq,
    verifyEntries_fs_preserves cfg gamedir _ _ _ hq]

theorem verifyFold_fs_preserves (cfg : VerifyCfg) (gamedir : String)
    (osList langNames : List String) :
    ∀ (gs : List Game) (st : VState) (items : List Game) {q : String},
    '/' ∉ q.data →
    fsLookup (gs.foldl (verifyStep cfg gamedir osList langNames) (st, items)).1.fs q
      = fsLookup st.fs q := by
  intro gs
  induction gs with
  | nil => intro st items q hq; rfl
  | cons g rest ih =>
    intro st items q hq
    rw [List.foldl_cons]
    have hstep : (verifyStep cfg gamedir osList langNames (st, items) g).1
        = (verifyGame cfg gamedir osList langNames st g).1 := rfl
    cases hsp : verifyStep cfg gamedir osList langNames (st, items) g with
    | mk st2 items2 =>
      rw [ih st2 items2 hq]
      have : st2 = (verifyGame cfg gamedir osList langNames st g).1 := by
        rw [← hstep, hsp]
      rw [this, verifyGame_fs_preserves cfg gamedir osList langNames st g hq]

/-- C7 is violated by the source, which contains no save_manifest call in
cmd_verify: the first conjunct shows that no run of the verify pass ever
changes the manifest file on disk (its path holds no slash, while every
path the pass touches lies under the game directory), and the second shows
a concrete run in which the verification-state mutation does update the
in-memory manifest, so the mutated state is lost rather than persisted. -/
theorem claim_C7_no_manifest_save :
    (∀ (cfg : VerifyCfg) (gamedir : String) (items : List Game)
       (ids skipids osList langList : List String) (fs : FS),
       fsLookup (cmdVerify cfg gamedir items ids skipids osList langList fs).1.fs
           MANIFEST_FILENAME
         = fsLookup fs MANIFEST_FILENAME)
    ∧ (cmdVerify ⟨true, true, true, false, false, false, false, false, false⟩
          "d" [⟨1, "t", "lt", "g", 0, false, "", "",
                [⟨"x", "windows", "English", none, "h", none, some "a", some 3, false⟩],
                [], [], []⟩]
          [] [] ["windows"] ["en"] [("d/t/a", ⟨"h", 3, true⟩)]).2
        ≠ [⟨1, "t", "lt", "g", 0, false, "", "",
            [⟨"x", "windows", "English", none, "h", none, some "a", some 3, false⟩],
            [], [], []⟩] := by
  constructor
  · intro cfg gamedir items ids skipids osList langList fs
    rw [cmdVerify]
    exact verifyFold_fs_preserves cfg gamedir osList (validLangs langList) _ _ _
      (by decide)
  · decide

/-! ## C4: an id-filtered update never touches unrelated items -/

theorem removeFirst_subset (l : List String) (s : String) : removeFirst l s ⊆ l := by
  induction l with
  | nil => simp [removeFirst]
  | cons x rest ih =>
    by_cases hx : x = s
    · simp only [removeFirst, if_pos hx]
      exact List.subset_cons_self x rest
    · simp only [removeFirst, if_neg hx]
      exact List.cons_subset_cons x ih

theorem removeMatched_subset (ids : List String) (p : Product) :
    removeMatched ids p ⊆ ids := by
  rw [removeMatched]
  by_cases h1 : p.title ∈ ids
  · rw [if_pos h1]
    exact removeFirst_subset ids p.title
  · rw [if_neg h1]
    by_cases h2 : toString p.id ∈ ids
    · rw [if_pos h2]
      exact removeFirst_subset ids (toString p.id)
    · rw [if_neg h2]
      exact List.Subset.refl ids

/-- Every product selected by the scan comes from the page contents. -/
theorem scanProducts_sub (knownIds : List Nat) (skipids : List String)
    (skipHidden skipknown updateonly : Bool) :
    ∀ (prods : List Product) (ids : List String),
    (scanProducts knownIds skipids skipHidden skipknown updateonly prods ids).1
      ⊆ prods := by
  intro prods
  induction prods with
  | nil => intro ids; simp [scanProducts]
  | cons p rest ih =>
    intro ids q hq
    simp only [scanProducts] at hq
    by_cases h1 : (skipHidden && p.isHidden) = true
    · rw [if_pos h1] at hq
      exact List.mem_cons_of_mem p (ih ids hq)
    · rw [if_neg h1] at hq
      by_cases h2 : p.title ∈ skipids ∨ toString p.id ∈ skipids
      · rw [if_pos h2] at hq
        exact List.mem_cons_of_mem p (ih ids hq)
      · rw [if_neg h2] at hq
        by_cases h3 : ids.isEmpty = true
        · rw [if_pos h3] at hq
          by_cases hk : productKeep knownIds skipknown updateonly p = true
          · rw [if_pos hk] at hq
            rcases List.mem_cons.mp hq with heq | hmem
            · exact heq ▸ List.mem_cons_self p rest
            · exact List.mem_cons_of_mem p (ih ids hmem)
          · rw [if_neg hk] at hq
            exact List.mem_cons_of_mem p (ih ids hq)
        · rw [if_neg h3] at hq
          by_cases h4 : p.title ∈ ids ∨ toString p.id ∈ ids
          · rw [if_pos h4] at hq
            by_cases h5 : (removeMatched ids p).isEmpty = true
            · rw [if_pos h5] at hq
              by_cases hk : productKeep knownIds skipknown updateonly p = true
              · rw [if_pos hk] at hq
                rcases List.mem_singleton.mp hq with heq
                exact heq ▸ List.mem_cons_self p rest
              · rw [if_neg hk] at hq
                cases hq
            · rw [if_neg h5] at hq
              by_cases hk : productKeep knownIds skipknown updateonly p = true
              · rw [if_pos hk] at hq
                rcases List.mem_cons.mp hq with heq | hmem
                · exact heq ▸ List.mem_cons_self p rest
                · exact List.mem_cons_of_mem p (ih _ hmem)
              · rw [if_neg hk] at hq
                exact List.mem_cons_of_mem p (ih _ hq)
          · rw [if_neg h4] at hq
            exact List.mem_cons_of_mem p (ih ids hq)

/-- The leftover filter entries are among the requested ones. -/
theorem scanProducts_ids_sub (knownIds : List Nat) (skipids : List String)
    (skipHidden skipknown updateonly : Bool) :
    ∀ (prods : List Product) (ids : List String),
    (scanProducts knownIds skipids skipHidden skipknown updateonly prods ids).2
      ⊆ ids := by
  intro prods
  induction prods with
  | nil => intro ids; simp [scanProducts]
  | cons p rest ih =>
    intro ids
    simp only [scanProducts]
    by_cases h1 : (skipHidden && p.isHidden) = true
    · rw [if_pos h1]
      exact ih ids
    · rw [if_neg h1]
      by_cases h2 : p.title ∈ skipids ∨ toString p.id ∈ skipids
      · rw [if_pos h2]
        exact ih ids
      · rw [if_neg h2]
        by_cases h3 : ids.isEmpty = true
        · rw [if_pos h3]
          exact ih ids
        · rw [if_neg h3]
          by_cases h4 : p.title ∈ ids ∨ toString p.id ∈ ids
          · rw [if_pos h4]
            by_cases h5 : (removeMatched ids p).isEmpty = true
            · rw [if_pos h5]
              exact removeMatched_subset ids p
            · rw [if_neg h5]
              exact (ih (removeMatched ids p)).trans (removeMatched_subset ids p)
          · rw [if_neg h4]
            exact ih ids

/-- With a nonempty ids filter, every selected product matched the filter
by title or by decimal id. -/
theorem scanProducts_matched (knownIds : List Nat) (skipids : List String)
    (skipHidden skipknown updateonly : Bool) :
    ∀ (prods : List Product) (ids : List String), ids ≠ [] →
    ∀ p ∈ (scanProducts knownIds skipids skipHidden skipknown updateonly prods ids).1,
    p.title ∈ ids ∨ toString p.id ∈ ids := by
  intro prods
  induction prods with
  | nil => intro ids _ p hp; simp [scanProducts] at hp
  | cons a rest ih =>
    intro ids hids p hp
    simp only [scanProducts] at hp
    by_cases h1 : (skipHidden && a.isHidden) = true
    · rw [if_pos h1] at hp
      exact ih ids hids p hp
    · rw [if_neg h1] at hp
      by_cases h2 : a.title ∈ skipids ∨ toString a.id ∈ skipids
      · rw [if_pos h2] at hp
        exact ih ids hids p hp
      · rw [if_neg h2] at hp
        have h3 : ids.isEmpty ≠ true := by
          simpa [List.isEmpty_iff] using hids
        rw [if_neg h3] at hp
        by_cases h4 : a.title ∈ ids ∨ toString a.id ∈ ids
        · rw [if_pos h4] at hp
          by_cases h5 : (removeMatched ids a).isEmpty = true
          · rw [if_pos h5] at hp
            by_cases hk : productKeep knownIds skipknown updateonly a = true
            · rw [if_pos hk] at hp
              rcases List.mem_singleton.mp hp with heq
              exact heq ▸ h4
            · rw [if_neg hk] at hp
              cases hp
          · rw [if_neg h5] at hp
            have hids2 : removeMatched ids a ≠ [] := by
              simpa [List.isEmpty_iff] using h5
            by_cases hk : productKeep knownIds skipknown updateonly a = true
            · rw [if_pos hk] at hp
              rcases List.mem_cons.mp hp with heq | hmem
              · exact heq ▸ h4
              · rcases ih _ hids2 p hmem with hx | hx
                · exact Or.inl (removeMatched_subset ids a hx)
                · exact Or.inr (removeMatched_subset ids a hx)
            · rw [if_neg hk] at hp
              rcases ih _ hids2 p hp with hx | hx
              · exact Or.inl (removeMatched_subset ids a hx)
              · exact Or.inr (removeMatched_subset ids a hx)
        · rw [if_neg h4] at hp
          exact ih ids hids p hp

theorem item_checkdb_get : ∀ {db : List Game} {s : Int} {i : Nat},
    item_checkdb s db = some i →
    ∃ h : i < db.length, ((db.get ⟨i, h⟩).id : Int) = s := by
  intro db
  induction db with
  | nil => intro s i h; simp [item_checkdb] at h
  | cons g rest ih =>
    intro s i h
    simp only [item_checkdb] at h
    by_cases hg : (g.id : Int) = s
    · rw [if_pos hg] at h
      injection h with h1
      subst h1
      exact ⟨by simp, hg⟩
    · rw [if_neg hg] at h
      cases hrec : item_checkdb s rest with
      | none => rw [hrec] at h; simp at h
      | some j =>
        rw [hrec] at h
        simp at h
        subst h
        obtain ⟨hj, hgj⟩ := ih hrec
        refine ⟨by simpa using Nat.succ_lt_succ hj, ?_⟩
        simpa using hgj

theorem mem_set_of_get_ne : ∀ (db : List Game) (i : Nat) (it v : Game),
    it ∈ db → (∀ h : i < db.length, db.get ⟨i, h⟩ ≠ it) → it ∈ db.set i v := by
  intro db
  induction db with
  | nil => intro i it v h _; cases h
  | cons g rest ih =>
    intro i it v h hne
    cases i with
    | zero =>
      rcases List.mem_cons.mp h with heq | hmem
      · exact absurd heq.symm (hne (by simp))
      · simpa [List.set] using Or.inr hmem
    | succ j =>
      rcases List.mem_cons.mp h with heq | hmem
      · simp [List.set, heq]
      · simp only [List.set, List.mem_cons]
        exact Or.inr (ih j it v hmem (fun hlt => by
          have := hne (by simpa using Nat.succ_lt_succ hlt)
          simpa using this))

theorem mem_eraseIdx_of_get_ne : ∀ (db : List Game) (i : Nat) (it : Game),
    it ∈ db → (∀ h : i < db.length, db.get ⟨i, h⟩ ≠ it) → it ∈ db.eraseIdx i := by
  intro db
  induction db with
  | nil => intro i it h _; cases h
  | cons g rest ih =>
    intro i it h hne
    cases i with
    | zero =>
      rcases List.mem_cons.mp h with heq | hmem
      · exact absurd heq.symm (hne (by simp))
      · simpa [List.eraseIdx] using hmem
    | succ j =>
      rcases List.mem_cons.mp h with heq | hmem
      · simp [List.eraseIdx, heq]
      · simp only [List.eraseIdx, List.mem_cons]
        exact Or.inr (ih j it hmem (fun hlt => by
          have := hne (by simpa using Nat.succ_lt_succ hlt)
          simpa using this))

/-- An item whose id differs from the searched id survives the delete. -/
theorem deleteItem_mem {db : List Game} {it : Game} {s : Int}
    (h : it ∈ db) (hne : (it.id : Int) ≠ s) : it ∈ deleteItem db s := by
  rw [deleteItem]
  cases hc : item_checkdb s db with
  | none => exact h
  | some i =>
    obtain ⟨hlt, hid⟩ := item_checkdb_get hc
    exact mem_eraseIdx_of_get_ne db i it h (fun h2 => by
      intro heq
      rw [heq] at hid
      exact hne hid)

theorem foldl_deleteItem_mem (vs : List Int) : ∀ (db : List Game) (it : Game),
    it ∈ db → (∀ v ∈ vs, (it.id : Int) ≠ v) → it ∈ vs.foldl deleteItem db := by
  induction vs with
  | nil => intro db it h _; exact h
  | cons v rest ih =>
    intro db it h hv
    rw [List.foldl_cons]
    exact ih _ it (deleteItem_mem h (hv v (by simp)))
      (fun w hw => hv w (List.mem_cons_of_mem v hw))

theorem foldl_deleteItem_pairs_mem (ps : List (Int × String)) :
    ∀ (db : List Game) (it : Game),
    it ∈ db → (∀ pr ∈ ps, (it.id : Int) ≠ pr.1) →
    it ∈ ps.foldl (fun d pr => deleteItem d pr.1) db := by
  induction ps with
  | nil => intro db it h _; exact h
  | cons v rest ih =>
    intro db it h hv
    rw [List.foldl_cons]
    exact ih _ it (deleteItem_mem h (hv v (by simp)))
      (fun w hw => hv w (List.mem_cons_of_mem v hw))

theorem mem_insertProductByTitle {a p : Product} : ∀ {l : List Product},
    a ∈ insertProductByTitle p l ↔ a = p ∨ a ∈ l := by
  intro l
  induction l with
  | nil => simp [insertProductByTitle]
  | cons h t ih =>
    by_cases hc : p.title ≤ h.title
    · simp [insertProductByTitle, hc]
    · simp only [insertProductByTitle, if_neg hc, List.mem_cons, ih]
      tauto

theorem mem_sortProductsByTitle {a : Product} : ∀ {l : List Product},
    a ∈ sortProductsByTitle l ↔ a ∈ l := by
  intro l
  induction l with
  | nil => simp [sortProductsByTitle]
  | cons p t ih =>
    have hstep : sortProductsByTitle (p :: t)
        = insertProductByTitle p (sortProductsByTitle t) := rfl
    rw [hstep, mem_insertProductByTitle, ih, List.mem_cons]

/-- An item not deliverable from the id filter survives the leftover-ids
pruning block. -/
theorem pruneInvalid_preserves (db : List Game) (idsLeft : List String)
    (knownIds : List Int) (knownTitles : List String) (it : Game)
    (hit : it ∈ db)
    (hnodup : (db.map Game.id).Nodup)
    (hnotid : ∀ s ∈ idsLeft, pyIntParse s ≠ some (it.id : Int))
    (hnotitle : it.title ∉ idsLeft) :
    it ∈ pruneInvalid db idsLeft knownIds knownTitles := by
  simp only [pruneInvalid]
  have h1 : it ∈ (idsLeft.filterMap (fun s =>
      (pyIntParse s).bind (fun v => if knownIds.contains v then some v else none))).foldl
      deleteItem db := by
    apply foldl_deleteItem_mem _ db it hit
    intro v hv
    rw [List.mem_filterMap] at hv
    obtain ⟨s, hs, hbind⟩ := hv
    cases hp : pyIntParse s with
    | none => rw [hp] at hbind; cases hbind
    | some w =>
      rw [hp] at hbind
      simp only [Option.some_bind] at hbind
      by_cases hw : knownIds.contains w = true
      · rw [if_pos hw] at hbind
        injection hbind with hwv
        subst hwv
        intro heq
        exact hnotid s hs (by rw [hp, heq])
      · rw [if_neg hw] at hbind
        cases hbind
  apply foldl_deleteItem_pairs_mem _ _ _ h1
  intro pr hpr
  rw [List.mem_map] at hpr
  obtain ⟨g, hg, hpr⟩ := hpr
  rw [List.mem_filter] at hg
  obtain ⟨hgdb, hgtitle⟩ := hg
  subst hpr
  intro heq
  have heq2 : (it.id : Int) = (g.id : Int) := heq
  have hgid : it.id = g.id := by exact_mod_cast heq2
  have hitg : it = g := List.inj_on_of_nodup_map hnodup hit hgdb hgid
  apply hnotitle
  rw [hitg]
  have := List.mem_filter.mp (by
    have hmem : g.title ∈ idsLeft.filter (fun s => knownTitles.contains s) := by
      simpa using hgtitle
    exact hmem)
  exact this.1

/-- An item whose id no selected product carries survives the whole detail
loop. -/
theorem foldl_applyDetailsStep_mem (installers : String)
    (details : Product → Option GameDetails) :
    ∀ (ps : List Product) (db : List Game) (it : Game),
    it ∈ db → (∀ p ∈ ps, p.id ≠ it.id) →
    it ∈ ps.foldl (applyDetailsStep installers details) db := by
  intro ps
  induction ps with
  | nil => intro db it h _; exact h
  | cons p rest ih =>
    intro db it h hp
    rw [List.foldl_cons]
    apply ih _ it ?_ (fun q hq => hp q (List.mem_cons_of_mem p hq))
    simp only [applyDetailsStep]
    split
    · exact h
    · split
      · rename_i d hd i hc
        obtain ⟨hlt, hid⟩ := item_checkdb_get hc
        apply mem_set_of_get_ne db i it _ h
        intro hlt2 heq
        apply hp p (List.mem_cons_self p rest)
        have hx : ((db.get ⟨i, hlt2⟩).id : Int) = (p.id : Int) := hid
        rw [heq] at hx
        exact_mod_cast hx.symm
      · exact List.mem_append_left _ h

/-- C4: with a nonempty ids filter, every manifest item the filter does not
name is still present unchanged in the manifest that gets saved: the
unfiltered pruning block is skipped, the leftover-ids pruning block only
deletes items the filter names, and the detail loop only replaces items
whose id a selected (hence filter-matched) product carries. -/
theorem claim_C4_filtered_update_frame
    (gamesdb : List Game) (prods : List Product)
    (details : Product → Option GameDetails) (installers : String)
    (ids skipids : List String) (skipHidden skipknown updateonly : Bool)
    (hids : ids ≠ [])
    (hnodup : (gamesdb.map Game.id).Nodup)
    (it : Game) (hit : it ∈ gamesdb)
    (hun : filterNamesGame prods ids it = false) :
    it ∈ cmdUpdate gamesdb prods details installers ids skipids
        skipHidden skipknown updateonly := by
  have hne : ids.isEmpty = false := by
    simpa [List.isEmpty_iff] using hids
  have hun1 : it.title ∉ ids := by
    intro hmem
    rw [filterNamesGame] at hun
    simp [hmem] at hun
  have hun2 : toString it.id ∉ ids := by
    intro hmem
    rw [filterNamesGame] at hun
    simp [hmem] at hun
  have hun3 : ∀ s ∈ ids, pyIntParse s ≠ some (it.id : Int) := by
    intro s hs hparse
    have hany : ids.any (fun s => pyIntParse s = some (it.id : Int)) = true :=
      List.any_eq_true.mpr ⟨s, hs, by simp [hparse]⟩
    rw [filterNamesGame, hany] at hun
    simp at hun
  have hun4 : ∀ p ∈ prods, p.id = it.id →
      p.title ∉ ids ∧ toString p.id ∉ ids := by
    intro p hp hpid
    constructor
    · intro hmem
      have hany : prods.any (fun p =>
          p.id = it.id && (ids.contains p.title || ids.contains (toString p.id))) = true :=
        List.any_eq_true.mpr ⟨p, hp, by simp [hpid, hmem]⟩
      rw [filterNamesGame, hany] at hun
      simp at hun
    · intro hmem
      have hmem2 : toString it.id ∈ ids := by rwa [hpid] at hmem
      have hany : prods.any (fun p =>
          p.id = it.id && (ids.contains p.title || ids.contains (toString p.id))) = true :=
        List.any_eq_true.mpr ⟨p, hp, by simp [hpid, hmem2]⟩
      rw [filterNamesGame, hany] at hun
      simp at hun
  have hprodne : ∀ p ∈ sortProductsByTitle
      (scanProducts (gamesdb.map (fun g => g.id)) skipids skipHidden skipknown
        updateonly prods ids).1, p.id ≠ it.id := by
    intro p hp heq
    rw [mem_sortProductsByTitle] at hp
    have hpin := scanProducts_sub (gamesdb.map (fun g => g.id)) skipids skipHidden
      skipknown updateonly prods ids hp
    rcases scanProducts_matched (gamesdb.map (fun g => g.id)) skipids skipHidden
        skipknown updateonly prods ids hids p hp with hx | hx
    · exact (hun4 p hpin heq).1 hx
    · exact (hun4 p hpin heq).2 hx
  simp only [cmdUpdate]
  rw [if_neg (show ¬ ((ids.isEmpty && !updateonly && !skipknown) = true) by
    simp [hne])]
  by_cases hb2 : (!ids.isEmpty && !updateonly && !skipknown) = true
  · rw [if_pos hb2]
    apply foldl_applyDetailsStep_mem installers details _ _ it ?_ hprodne
    apply pruneInvalid_preserves gamesdb _ _ _ it hit hnodup
    · intro s hs
      exact hun3 s (scanProducts_ids_sub (gamesdb.map (fun g => g.id)) skipids
        skipHidden skipknown updateonly prods ids hs)
    · intro hmem
      exact hun1 (scanProducts_ids_sub (gamesdb.map (fun g => g.id)) skipids
        skipHidden skipknown updateonly prods ids hmem)
  · rw [if_neg hb2]
    exact foldl_applyDetailsStep_mem installers details _ _ it hit hprodne

/-- Witness for C4: an update filtered to id 2 leaves the unrelated item
with id 1 in place. -/
theorem claim_C4_filtered_update_frame_witness :
    (⟨1, "foo", "lf", "gen", 0, false, "", "", [], [], [], []⟩ : Game)
      ∈ cmdUpdate [⟨1, "foo", "lf", "gen", 0, false, "", "", [], [], [], []⟩]
          [] (fun _ => none) "standalone" ["2"] [] false false false :=
  claim_C4_filtered_update_frame
    [⟨1, "foo", "lf", "gen", 0, false, "", "", [], [], [], []⟩]
    [] (fun _ => none) "standalone" ["2"] [] false false false
    (by decide) (by decide)
    ⟨1, "foo", "lf", "gen", 0, false, "", "", [], [], [], []⟩
    (by decide) (by decide)

end Gogrepo
